import Mathlib

/-!
# Verification of the `siringa` dependency-injection runtime engine

This file gives a shallow embedding of the runtime resolution engine of the
`siringa` library (`src/index.ts`): the `Injector` class with its binding
registry (`#factories`), memo cache (`#promises`), parent delegation,
cycle detection, deferred (promised) bindings and the restricted
`Injections` surface handed to factories.

JavaScript's single-threaded cooperative concurrency is modelled by a
`World` holding a heap of registries, a heap of promises (with `linked`
states standing for promise adoption), a microtask job queue and an object
heap recording every constructor invocation together with the argument list
it received.  The synchronous part of each operation is a pure function on
`World`; the asynchronous parts are jobs executed one at a time by a
scheduler, mirroring the microtask queue.  An async JS function returning a
promise `p` is modelled as returning `p` itself (settlement-equivalent to
the fresh wrapper promise the JS engine allocates).
-/

set_option maxRecDepth 10000

/-- A binding key: either a class identity (identity `cid` plus the class
`name` used for display) or a string name.  Mirrors `type Binding =
Constructor | string`. -/
inductive Binding where
  | cls (cid : Nat) (cname : String)
  | str (s : String)
deriving DecidableEq, Repr

/-- Utility to nicely print a binding name; mirrors `bindingName` in the
source: `[class X]` for a constructor, `"x"` for a string. -/
def bindingName : Binding → String
  | .cls _ n => "[class " ++ n ++ "]"
  | .str s => "\x22" ++ s ++ "\x22"

/-- One entry of a static `$inject` declaration: a plain binding key, or a
key wrapped by `promise(...)` (the `PromisedBinding` marker object). -/
inductive InjectKey where
  | plain (b : Binding)
  | promised (b : Binding)
deriving DecidableEq, Repr

/-- Declare a binding to be promised; mirrors the exported `promise`
helper producing a `PromisedBinding` marker. -/
def promise (b : Binding) : InjectKey := .promised b

/-- An injectable class: its identity, its name and its optional static
`$inject` tuple. -/
structure Injectable where
  cid : Nat
  cname : String
  inject : Option (List InjectKey)
deriving DecidableEq, Repr

/-- The binding key denoted by a class used as its own key (the single
argument form of `bind`). -/
def classKey (i : Injectable) : Binding := .cls i.cid i.cname

abbrev PromiseId := Nat
abbrev RegId := Nat
abbrev ObjId := Nat

/-- Runtime values: primitives, object references, promise references,
`Error` objects (carrying their message), `PromisedBinding` marker objects
and injector (registry) references. -/
inductive Value where
  | undef
  | vnull
  | vbool (b : Bool)
  | vnum (n : Int)
  | vstr (s : String)
  | obj (o : ObjId)
  | promiseV (p : PromiseId)
  | err (msg : String)
  | marker (b : Binding)
  | reg (r : RegId)
deriving DecidableEq, Repr

/-- Whether the JavaScript `in` operator may be applied to a value: it
throws a `TypeError` on primitives and only works on object-like values. -/
def isObjectLike : Value → Bool
  | .obj _ => true
  | .promiseV _ => true
  | .err _ => true
  | .marker _ => true
  | .reg _ => true
  | _ => false

/-- Whether a value is a `PromisedBinding` marker (the
`promisedBinding in i` test, valid only on object-like values). -/
def hasPromisedBinding : Value → Bool
  | .marker _ => true
  | _ => false

/-- The underlying binding of a marker (`i[promisedBinding]`). -/
def markerKey : Value → Binding
  | .marker b => b
  | _ => .str ""

/-- The body of a user factory registered with `create`.  A factory
receives the restricted `Injections` surface and may return a plain value,
return the result of `injections.get`, return the result of
`injections.inject`, construct and return a fresh object of its own, or
return a fresh child injector obtained from `injections.injector()`. -/
inductive FactoryCode where
  | ret (v : Value)
  | retGet (b : Binding)
  | retInject (i : Injectable)
  | retNew (cid : Nat)
  | retChild
deriving DecidableEq, Repr

/-- A producer stored in the `#factories` map: `bind` stores a closure
running `#inject` on an injectable, `create` stores the user factory. -/
inductive Producer where
  | ofInjectable (i : Injectable)
  | ofFactory (f : FactoryCode)
deriving DecidableEq, Repr

/-- The state of one promise in the promise heap.  `linked q` models a
promise resolved with another promise `q` (adoption): it settles exactly as
`q` settles. -/
inductive PromiseState where
  | pending
  | fulfilled (v : Value)
  | rejected (reason : Value)
  | linked (q : PromiseId)
deriving DecidableEq, Repr

/-- One position of the array handed to `Promise.all` inside `#inject`:
either a promise to await (plain keys, resolved via `#get`) or a
`PromisedBinding` marker passed through unchanged. -/
inductive AwaitedPos where
  | await (p : PromiseId)
  | marker (b : Binding)
deriving DecidableEq, Repr

/-- A queued microtask.  `runFactory` is the
`Promise.resolve().then(() => factory([...stack, binding]))` continuation
created by `#get` (capturing the producer looked up at `#get` time);
`injectAll` is the continuation of `#inject` after `await Promise.all`. -/
inductive Job where
  | runFactory (r : RegId) (b : Binding) (stack : List Binding)
      (prod : Producer) (result : PromiseId)
  | injectAll (r : RegId) (i : Injectable) (stack : List Binding)
      (positions : List AwaitedPos) (result : PromiseId)
deriving DecidableEq, Repr

/-- One registry (one `Injector` instance): its `#factories` map, its
`#promises` memo cache, and its optional `#parent` pointer. -/
structure RegistryData where
  factories : List (Binding × Producer)
  promises : List (Binding × PromiseId)
  parent : Option RegId
deriving DecidableEq, Repr

/-- A constructed object: the class it instantiates and the argument list
its constructor received, positionally. -/
structure ObjRec where
  cid : Nat
  args : List Value
deriving DecidableEq, Repr

/-- The whole JavaScript world: the heap of registries, the promise heap,
the heap of constructed objects, the microtask queue and a trace recording
every producer invocation as a `(registry, key)` pair. -/
structure World where
  regs : List RegistryData
  promises : List PromiseState
  objs : List ObjRec
  queue : List Job
  trace : List (RegId × Binding)
deriving DecidableEq, Repr

def World.empty : World := ⟨[], [], [], [], []⟩

/- ### Association-list primitives (JS `Map.get` / `Map.set`) -/

/-- `Map.get`: first matching entry. -/
def lookupA {α : Type} : List (Binding × α) → Binding → Option α
  | [], _ => none
  | (k, v) :: rest, b => if k = b then some v else lookupA rest b

/-- `Map.set`: replace in place, or append when absent. -/
def setA {α : Type} : List (Binding × α) → Binding → α → List (Binding × α)
  | [], b, v => [(b, v)]
  | (k, x) :: rest, b, v =>
      if k = b then (b, v) :: rest else (k, x) :: setA rest b v

theorem lookupA_setA_self {α : Type} (l : List (Binding × α)) (b : Binding) (v : α) :
    lookupA (setA l b v) b = some v := by
  induction l with
  | nil => simp [setA, lookupA]
  | cons hd tl ih =>
      obtain ⟨k, x⟩ := hd
      by_cases h : k = b <;> simp [setA, lookupA, h, ih]

theorem lookupA_setA_ne {α : Type} (l : List (Binding × α)) (b b' : Binding) (v : α)
    (h : b ≠ b') : lookupA (setA l b v) b' = lookupA l b' := by
  induction l with
  | nil => simp [setA, lookupA, h]
  | cons hd tl ih =>
      obtain ⟨k, x⟩ := hd
      by_cases hk : k = b
      · subst hk
        simp [setA, lookupA, h]
      · simp [setA, lookupA, hk, ih]

/- ### World observers -/

/-- The registry stored at index `r`, if any. -/
def regAt (w : World) (r : RegId) : Option RegistryData := w.regs[r]?

/-- The memo-cache entry of registry `r` for key `b`. -/
def memoOf (w : World) (r : RegId) (b : Binding) : Option PromiseId :=
  match regAt w r with
  | none => none
  | some reg => lookupA reg.promises b

/-- The producer registered in registry `r` for key `b`. -/
def factoryOf (w : World) (r : RegId) (b : Binding) : Option Producer :=
  match regAt w r with
  | none => none
  | some reg => lookupA reg.factories b

/-- The parent pointer of registry `r`. -/
def parentOf (w : World) (r : RegId) : Option RegId :=
  match regAt w r with
  | none => none
  | some reg => reg.parent

/-- Whether a job is a queued producer run for `(r, b)`. -/
def isRunFor (r : RegId) (b : Binding) : Job → Bool
  | .runFactory r' b' _ _ _ => r' = r && b' = b
  | _ => false

/-- How many producer runs for `(r, b)` are currently queued. -/
def jobsFor (w : World) (r : RegId) (b : Binding) : Nat :=
  (w.queue.filter (isRunFor r b)).length

/-- How many times a producer for `(r, b)` has actually run. -/
def producerRuns (w : World) (r : RegId) (b : Binding) : Nat :=
  (w.trace.filter (fun e => e.1 = r && e.2 = b)).length

/-- Follow `linked` chains to a final settlement: `none` while pending (or
out of fuel / dangling), `some (true, v)` when fulfilled with `v`,
`some (false, e)` when rejected with reason `e`. -/
def resolveLink (w : World) : Nat → PromiseId → Option (Bool × Value)
  | 0, _ => none
  | fuel + 1, p =>
      match w.promises[p]? with
      | some (.fulfilled v) => some (true, v)
      | some (.rejected e) => some (false, e)
      | some (.linked q) => resolveLink w fuel q
      | some .pending => none
      | none => none

/-- Final settlement of a promise, with fuel bounded by the heap size. -/
def finalP (w : World) (p : PromiseId) : Option (Bool × Value) :=
  resolveLink w (w.promises.length + 1) p

/- ### World transformers -/

/-- Allocate a fresh promise in the given state. -/
def freshP (w : World) (st : PromiseState) : PromiseId × World :=
  (w.promises.length, { w with promises := w.promises ++ [st] })

/-- A fresh rejected promise carrying an `Error` with `msg`; models
`Promise.reject(new Error(msg))`. -/
def mkRejected (w : World) (msg : String) : PromiseId × World :=
  freshP w (.rejected (.err msg))

/-- Set the state of promise `p`. -/
def settleP (w : World) (p : PromiseId) (st : PromiseState) : World :=
  { w with promises := w.promises.set p st }

/-- Resolve promise `p` with value `v`: adopt when `v` is itself a
promise, otherwise fulfil. -/
def settleWith (w : World) (p : PromiseId) (v : Value) : World :=
  match v with
  | .promiseV q => settleP w p (.linked q)
  | _ => settleP w p (.fulfilled v)

/-- Reject promise `p` with `reason`. -/
def rejectP (w : World) (p : PromiseId) (reason : Value) : World :=
  settleP w p (.rejected reason)

/-- Allocate a fresh object of class `cid`, recording the constructor
arguments it received: models `new injectable(...injections)`. -/
def allocObj (w : World) (cid : Nat) (args : List Value) : ObjId × World :=
  (w.objs.length, { w with objs := w.objs ++ [⟨cid, args⟩] })

/-- Append a job to the microtask queue. -/
def enqueue (w : World) (j : Job) : World :=
  { w with queue := w.queue ++ [j] }

/-- Record one producer invocation for `(r, b)`. -/
def addTrace (w : World) (r : RegId) (b : Binding) : World :=
  { w with trace := w.trace ++ [(r, b)] }

/-- Update registry `r` in place. -/
def modifyReg (w : World) (r : RegId) (f : RegistryData → RegistryData) : World :=
  match w.regs[r]? with
  | none => w
  | some reg => { w with regs := w.regs.set r (f reg) }

/-- Store `pid` in the memo cache of registry `r` for key `b`. -/
def setMemo (w : World) (r : RegId) (b : Binding) (pid : PromiseId) : World :=
  modifyReg w r (fun reg => { reg with promises := setA reg.promises b pid })

/-- Store a producer in the `#factories` map of registry `r` for key `b`. -/
def setFactory (w : World) (r : RegId) (b : Binding) (p : Producer) : World :=
  modifyReg w r (fun reg => { reg with factories := setA reg.factories b p })

/- ### The resolver: `Injector.#get` -/

/-- The synchronous body of `Injector.#get(binding, stack)`, translated
line by line from the source.  `fuel` bounds the parent-chain recursion
(parent pointers of well-formed worlds strictly decrease, so
`w.regs.length` is always enough).

```
if (stack.includes(binding)) {
  if (this.#parent) return this.#parent.#get(binding, [])
  return Promise.reject(new Error(`Recursion detected injecting ...`))
}
const promise = this.#promises.get(binding)
if (promise) return promise
const factory = this.#factories.get(binding)
if (factory) {
  const promise = Promise.resolve().then(() => factory([ ...stack, binding ]))
  this.#promises.set(binding, promise)
  return promise
}
if (this.#parent) return this.#parent.#get(binding, [])
return Promise.reject(new Error(`Unable to resolve binding ...`))
```
-/
def getAux : Nat → World → RegId → Binding → List Binding → PromiseId × World
  | 0, w, _, _, _ => mkRejected w "out of fuel"
  | fuel + 1, w, r, b, stack =>
      if stack.contains b then
        match parentOf w r with
        | some p => getAux fuel w p b []
        | none => mkRejected w ("Recursion detected injecting " ++ bindingName b)
      else
        match memoOf w r b with
        | some pid => (pid, w)
        | none =>
            match factoryOf w r b with
            | some prod =>
                let pw := freshP w .pending
                let w1 := setMemo pw.2 r b pw.1
                (pw.1, enqueue w1 (.runFactory r b (stack ++ [b]) prod pw.1))
            | none =>
                match parentOf w r with
                | some p => getAux fuel w p b []
                | none => mkRejected w ("Unable to resolve binding " ++ bindingName b)

/-- `#get` with the standard fuel. -/
def getF (w : World) (r : RegId) (b : Binding) (stack : List Binding) :
    PromiseId × World :=
  getAux w.regs.length w r b stack

/- ### The injection pipeline: `Injector.#inject` -/

/-- First phase of `#inject`: map each `$inject` entry to either a promise
obtained from `#get(binding, stack)` (plain string/function entries) or
the `PromisedBinding` marker itself, in declared order. -/
def phase1 (r : RegId) (stack : List Binding) :
    World → List InjectKey → World × List AwaitedPos
  | w, [] => (w, [])
  | w, .plain b :: rest =>
      let pw := getF w r b stack
      let rec1 := phase1 r stack pw.2 rest
      (rec1.1, .await pw.1 :: rec1.2)
  | w, .promised b :: rest =>
      let rec1 := phase1 r stack w rest
      (rec1.1, .marker b :: rec1.2)

/-- Start `#inject(injectable, stack)`: run the synchronous first phase,
then either construct immediately (no `$inject`, hence no `await`) or
suspend on `Promise.all` by queueing an `injectAll` continuation.  Returns
the promise of the new instance. -/
def injectStart (w : World) (r : RegId) (i : Injectable) (stack : List Binding) :
    PromiseId × World :=
  match i.inject with
  | none =>
      let ow := allocObj w i.cid []
      freshP ow.2 (.fulfilled (.obj ow.1))
  | some keys =>
      let pw := phase1 r stack w keys
      let qw := freshP pw.1 .pending
      (qw.1, enqueue qw.2 (.injectAll r i stack pw.2 qw.1))

/-- One value as observed after `await Promise.all`: the settled value of
a plain position, or a pass-through marker. -/
inductive FinVal where
  | val (v : Value)
  | marker (b : Binding)
deriving DecidableEq, Repr

/-- Read the settled results of the awaited positions: `Promise.all`
semantics — the first rejection (if any) wins, otherwise all fulfilled
values in order, markers passing through unchanged. -/
def awaitedResults (w : World) : List AwaitedPos → Except Value (List FinVal)
  | [] => .ok []
  | .await p :: rest =>
      match finalP w p with
      | some (false, e) => .error e
      | some (true, v) =>
          match awaitedResults w rest with
          | .error e => .error e
          | .ok vs => .ok (.val v :: vs)
      | none =>
          match awaitedResults w rest with
          | .error e => .error e
          | .ok vs => .ok (.val .undef :: vs)
  | .marker b :: rest =>
      match awaitedResults w rest with
      | .error e => .error e
      | .ok vs => .ok (.marker b :: vs)

/-- Second phase of `#inject` after the `await`:

```
(await Promise.all(promises)).map((i) => {
  return promisedBinding in i ? this.#get(i[promisedBinding], stack) : i
})
```

Markers (and any object carrying the `promisedBinding` symbol) are turned
into the promise returned by `#get(underlying, stack)`.  Applying `in` to
a non-object primitive throws a `TypeError`, aborting the map (later
positions are not evaluated, earlier `#get` side effects stand). -/
def finishMap (r : RegId) (stack : List Binding) :
    World → List FinVal → World × Except Value (List Value)
  | w, [] => (w, .ok [])
  | w, .marker b :: rest =>
      let pw := getF w r b stack
      let rec1 := finishMap r stack pw.2 rest
      match rec1.2 with
      | .ok args => (rec1.1, .ok (.promiseV pw.1 :: args))
      | .error e => (rec1.1, .error e)
  | w, .val v :: rest =>
      if isObjectLike v then
        if hasPromisedBinding v then
          let pw := getF w r (markerKey v) stack
          let rec1 := finishMap r stack pw.2 rest
          match rec1.2 with
          | .ok args => (rec1.1, .ok (.promiseV pw.1 :: args))
          | .error e => (rec1.1, .error e)
        else
          let rec1 := finishMap r stack w rest
          match rec1.2 with
          | .ok args => (rec1.1, .ok (v :: args))
          | .error e => (rec1.1, .error e)
      else
        (w, .error (.err ("TypeError: Cannot use 'in' operator to search for 'Symbol(siringa.promisedBinding)' in " ++ "primitive")))

/- ### The restricted factory surface -/

/-- The `Injections` surface handed to a user factory by `create` (and by
`make`): exactly `get`, `inject` and `injector`, the first two scoped to
the call stack captured at registration-invocation time.  The registration
operations `bind`, `create` and `use` are not part of this structure. -/
structure Injections where
  doGet : Binding → World → PromiseId × World
  doInject : Injectable → World → PromiseId × World
  doInjector : World → RegId × World

/-- Create a child registry of `r`: fresh empty bindings and memo, parent
pointer set to `r`.  Mirrors `Injector.injector()`. -/
def childOf (w : World) (r : RegId) : RegId × World :=
  (w.regs.length, { w with regs := w.regs ++ [⟨[], [], some r⟩] })

/-- The `Injections` record built by `create` for a factory running in
registry `r` with captured stack `stack`:

```
factory({
  get: (component) => this.#get(component, stack),
  inject: async (injectable) => this.#inject(injectable, stack),
  injector: () => this.injector(),
})
```
-/
def factoryInjections (r : RegId) (stack : List Binding) : Injections where
  doGet := fun b w => getF w r b stack
  doInject := fun i w => injectStart w r i stack
  doInjector := fun w => childOf w r

/-- Run a factory body against an `Injections` surface, returning the
factory's return value (possibly a promise). -/
def runFCode (inj : Injections) (w : World) : FactoryCode → Value × World
  | .ret v => (v, w)
  | .retGet b =>
      let pw := inj.doGet b w
      (.promiseV pw.1, pw.2)
  | .retInject i =>
      let pw := inj.doInject i w
      (.promiseV pw.1, pw.2)
  | .retNew cid =>
      let ow := allocObj w cid []
      (.obj ow.1, ow.2)
  | .retChild =>
      let rw := inj.doInjector w
      (.reg rw.1, rw.2)

/- ### The scheduler (microtask queue) -/

/-- Execute one dequeued job.  A `runFactory` job records the producer
invocation, runs the producer captured at `#get` time and resolves the
memoized promise with its result (adopting returned promises).  An
`injectAll` job reads the settled dependency values, runs the second map
(possibly throwing a `TypeError`), invokes the constructor positionally
and fulfils the `#inject` promise with the fresh instance. -/
def execJob (w : World) : Job → World
  | .runFactory r b stack prod q =>
      let w1 := addTrace w r b
      match prod with
      | .ofFactory f =>
          let vw := runFCode (factoryInjections r stack) w1 f
          settleWith vw.2 q vw.1
      | .ofInjectable i =>
          let pw := injectStart w1 r i stack
          settleWith pw.2 q (.promiseV pw.1)
  | .injectAll r i stack positions q =>
      match awaitedResults w positions with
      | .error reason => rejectP w q reason
      | .ok fvals =>
          let fw := finishMap r stack w fvals
          match fw.2 with
          | .error e => rejectP fw.1 q e
          | .ok args =>
              let ow := allocObj fw.1 i.cid args
              settleWith ow.2 q (.obj ow.1)

/-- Whether a queued job can run now: producer runs always can; an
`injectAll` continuation resumes once `Promise.all` settles — when some
awaited promise has rejected, or all have fulfilled. -/
def runnableJob (w : World) : Job → Bool
  | .runFactory _ _ _ _ _ => true
  | .injectAll _ _ _ positions _ =>
      (positions.any (fun pos =>
        match pos with
        | .await p =>
            match finalP w p with
            | some (false, _) => true
            | _ => false
        | .marker _ => false)) ||
      (positions.all (fun pos =>
        match pos with
        | .await p =>
            match finalP w p with
            | some (true, _) => true
            | _ => false
        | .marker _ => true))

/-- Find the first runnable job, returning it with the rest of the queue. -/
def findRunnable (w : World) : List Job → Option (Job × List Job)
  | [] => none
  | j :: rest =>
      if runnableJob w j then some (j, rest)
      else
        match findRunnable w rest with
        | none => none
        | some (j', rest') => some (j', j :: rest')

/-- One scheduler step: dequeue and execute the first runnable job. -/
def schedStep (w : World) : Option World :=
  match findRunnable w w.queue with
  | none => none
  | some (j, rest) => some (execJob { w with queue := rest } j)

/-- Run the scheduler for up to `n` steps. -/
def runSched : Nat → World → World
  | 0, w => w
  | n + 1, w =>
      match schedStep w with
      | none => w
      | some w' => runSched n w'

/- ### The public `Injector` API -/

namespace Injector

/-- `new Injector()`: a fresh root registry with empty maps and no
parent. -/
def newInjector (w : World) : RegId × World :=
  (w.regs.length, { w with regs := w.regs ++ [⟨[], [], none⟩]})

/-- `bind(binding, injectable)`: store
`async (stack) => this.#inject(injectable, stack)` in `#factories`.
The single-argument form passes `classKey i` as the key. -/
def bind (w : World) (r : RegId) (b : Binding) (i : Injectable) : World :=
  setFactory w r b (.ofInjectable i)

/-- `bind(injectable)`: the key is the injectable class itself. -/
def bindSelf (w : World) (r : RegId) (i : Injectable) : World :=
  bind w r (classKey i) i

/-- `create(binding, factory)`: store a producer invoking the user factory
with the restricted `Injections` surface scoped to the call stack. -/
def create (w : World) (r : RegId) (b : Binding) (f : FactoryCode) : World :=
  setFactory w r b (.ofFactory f)

/-- `use(binding, instance)`: store `Promise.resolve(instance)` directly in
the memo cache.  `Promise.resolve` of a promise is that promise itself;
any other value yields a fresh fulfilled promise. -/
def use (w : World) (r : RegId) (b : Binding) (v : Value) : World :=
  match v with
  | .promiseV q => setMemo w r b q
  | _ =>
      let pw := freshP w (.fulfilled v)
      setMemo pw.2 r b pw.1

/-- `get(binding)`: `this.#get(binding, [])`. -/
def get (w : World) (r : RegId) (b : Binding) : PromiseId × World :=
  getF w r b []

/-- `inject(injectable)`: `this.#inject(injectable, [])`. -/
def inject (w : World) (r : RegId) (i : Injectable) : PromiseId × World :=
  injectStart w r i []

/-- `make(factory)`: invoke the factory immediately with the `Injections`
surface scoped to an empty stack, returning its result. -/
def make (w : World) (r : RegId) (f : FactoryCode) : Value × World :=
  runFCode (factoryInjections r []) w f

/-- `injector()`: create a child registry of `r`. -/
def injector (w : World) (r : RegId) : RegId × World :=
  childOf w r

end Injector

/- ### Field equations for the primitive transformers -/

@[simp] theorem regs_freshP (w : World) (st : PromiseState) : (freshP w st).2.regs = w.regs := rfl
@[simp] theorem queue_freshP (w : World) (st : PromiseState) : (freshP w st).2.queue = w.queue := rfl
@[simp] theorem trace_freshP (w : World) (st : PromiseState) : (freshP w st).2.trace = w.trace := rfl
@[simp] theorem objs_freshP (w : World) (st : PromiseState) : (freshP w st).2.objs = w.objs := rfl
@[simp] theorem promises_freshP (w : World) (st : PromiseState) :
    (freshP w st).2.promises = w.promises ++ [st] := rfl
@[simp] theorem fst_freshP (w : World) (st : PromiseState) : (freshP w st).1 = w.promises.length := rfl

@[simp] theorem regs_settleP (w : World) (p : PromiseId) (st : PromiseState) :
    (settleP w p st).regs = w.regs := rfl
@[simp] theorem queue_settleP (w : World) (p : PromiseId) (st : PromiseState) :
    (settleP w p st).queue = w.queue := rfl
@[simp] theorem trace_settleP (w : World) (p : PromiseId) (st : PromiseState) :
    (settleP w p st).trace = w.trace := rfl
@[simp] theorem objs_settleP (w : World) (p : PromiseId) (st : PromiseState) :
    (settleP w p st).objs = w.objs := rfl

@[simp] theorem regs_settleWith (w : World) (p : PromiseId) (v : Value) :
    (settleWith w p v).regs = w.regs := by cases v <;> rfl
@[simp] theorem queue_settleWith (w : World) (p : PromiseId) (v : Value) :
    (settleWith w p v).queue = w.queue := by cases v <;> rfl
@[simp] theorem trace_settleWith (w : World) (p : PromiseId) (v : Value) :
    (settleWith w p v).trace = w.trace := by cases v <;> rfl
@[simp] theorem objs_settleWith (w : World) (p : PromiseId) (v : Value) :
    (settleWith w p v).objs = w.objs := by cases v <;> rfl

@[simp] theorem regs_rejectP (w : World) (p : PromiseId) (v : Value) :
    (rejectP w p v).regs = w.regs := rfl
@[simp] theorem queue_rejectP (w : World) (p : PromiseId) (v : Value) :
    (rejectP w p v).queue = w.queue := rfl
@[simp] theorem trace_rejectP (w : World) (p : PromiseId) (v : Value) :
    (rejectP w p v).trace = w.trace := rfl
@[simp] theorem objs_rejectP (w : World) (p : PromiseId) (v : Value) :
    (rejectP w p v).objs = w.objs := rfl

@[simp] theorem regs_mkRejected (w : World) (m : String) : (mkRejected w m).2.regs = w.regs := rfl
@[simp] theorem queue_mkRejected (w : World) (m : String) : (mkRejected w m).2.queue = w.queue := rfl
@[simp] theorem trace_mkRejected (w : World) (m : String) : (mkRejected w m).2.trace = w.trace := rfl
@[simp] theorem objs_mkRejected (w : World) (m : String) : (mkRejected w m).2.objs = w.objs := rfl
@[simp] theorem promises_mkRejected (w : World) (m : String) :
    (mkRejected w m).2.promises = w.promises ++ [.rejected (.err m)] := rfl
@[simp] theorem fst_mkRejected (w : World) (m : String) : (mkRejected w m).1 = w.promises.length := rfl

@[simp] theorem regs_enqueue (w : World) (j : Job) : (enqueue w j).regs = w.regs := rfl
@[simp] theorem queue_enqueue (w : World) (j : Job) : (enqueue w j).queue = w.queue ++ [j] := rfl
@[simp] theorem trace_enqueue (w : World) (j : Job) : (enqueue w j).trace = w.trace := rfl
@[simp] theorem objs_enqueue (w : World) (j : Job) : (enqueue w j).objs = w.objs := rfl
@[simp] theorem promises_enqueue (w : World) (j : Job) : (enqueue w j).promises = w.promises := rfl

@[simp] theorem regs_addTrace (w : World) (r : RegId) (b : Binding) :
    (addTrace w r b).regs = w.regs := rfl
@[simp] theorem queue_addTrace (w : World) (r : RegId) (b : Binding) :
    (addTrace w r b).queue = w.queue := rfl
@[simp] theorem trace_addTrace (w : World) (r : RegId) (b : Binding) :
    (addTrace w r b).trace = w.trace ++ [(r, b)] := rfl
@[simp] theorem objs_addTrace (w : World) (r : RegId) (b : Binding) :
    (addTrace w r b).objs = w.objs := rfl
@[simp] theorem promises_addTrace (w : World) (r : RegId) (b : Binding) :
    (addTrace w r b).promises = w.promises := rfl

@[simp] theorem regs_allocObj (w : World) (c : Nat) (a : List Value) :
    (allocObj w c a).2.regs = w.regs := rfl
@[simp] theorem queue_allocObj (w : World) (c : Nat) (a : List Value) :
    (allocObj w c a).2.queue = w.queue := rfl
@[simp] theorem trace_allocObj (w : World) (c : Nat) (a : List Value) :
    (allocObj w c a).2.trace = w.trace := rfl
@[simp] theorem objs_allocObj (w : World) (c : Nat) (a : List Value) :
    (allocObj w c a).2.objs = w.objs ++ [⟨c, a⟩] := rfl
@[simp] theorem promises_allocObj (w : World) (c : Nat) (a : List Value) :
    (allocObj w c a).2.promises = w.promises := rfl
@[simp] theorem fst_allocObj (w : World) (c : Nat) (a : List Value) :
    (allocObj w c a).1 = w.objs.length := rfl

theorem queue_modifyReg (w : World) (r : RegId) (f : RegistryData → RegistryData) :
    (modifyReg w r f).queue = w.queue := by
  unfold modifyReg; cases w.regs[r]? <;> rfl

theorem trace_modifyReg (w : World) (r : RegId) (f : RegistryData → RegistryData) :
    (modifyReg w r f).trace = w.trace := by
  unfold modifyReg; cases w.regs[r]? <;> rfl

theorem objs_modifyReg (w : World) (r : RegId) (f : RegistryData → RegistryData) :
    (modifyReg w r f).objs = w.objs := by
  unfold modifyReg; cases w.regs[r]? <;> rfl

theorem promisesHeap_modifyReg (w : World) (r : RegId) (f : RegistryData → RegistryData) :
    (modifyReg w r f).promises = w.promises := by
  unfold modifyReg; cases w.regs[r]? <;> rfl

@[simp] theorem queue_setMemo (w : World) (r : RegId) (b : Binding) (p : PromiseId) :
    (setMemo w r b p).queue = w.queue := queue_modifyReg ..
@[simp] theorem trace_setMemo (w : World) (r : RegId) (b : Binding) (p : PromiseId) :
    (setMemo w r b p).trace = w.trace := trace_modifyReg ..
@[simp] theorem objs_setMemo (w : World) (r : RegId) (b : Binding) (p : PromiseId) :
    (setMemo w r b p).objs = w.objs := objs_modifyReg ..
@[simp] theorem promises_setMemo (w : World) (r : RegId) (b : Binding) (p : PromiseId) :
    (setMemo w r b p).promises = w.promises := promisesHeap_modifyReg ..

@[simp] theorem queue_setFactory (w : World) (r : RegId) (b : Binding) (p : Producer) :
    (setFactory w r b p).queue = w.queue := queue_modifyReg ..
@[simp] theorem trace_setFactory (w : World) (r : RegId) (b : Binding) (p : Producer) :
    (setFactory w r b p).trace = w.trace := trace_modifyReg ..
@[simp] theorem objs_setFactory (w : World) (r : RegId) (b : Binding) (p : Producer) :
    (setFactory w r b p).objs = w.objs := objs_modifyReg ..
@[simp] theorem promises_setFactory (w : World) (r : RegId) (b : Binding) (p : Producer) :
    (setFactory w r b p).promises = w.promises := promisesHeap_modifyReg ..

/- ### Observer congruence -/

theorem regAt_congr {w w' : World} (h : w'.regs = w.regs) (r : RegId) :
    regAt w' r = regAt w r := by unfold regAt; rw [h]

theorem memoOf_congr {w w' : World} (h : w'.regs = w.regs) (r : RegId) (b : Binding) :
    memoOf w' r b = memoOf w r b := by unfold memoOf; rw [regAt_congr h]

theorem factoryOf_congr {w w' : World} (h : w'.regs = w.regs) (r : RegId) (b : Binding) :
    factoryOf w' r b = factoryOf w r b := by unfold factoryOf; rw [regAt_congr h]

theorem parentOf_congr {w w' : World} (h : w'.regs = w.regs) (r : RegId) :
    parentOf w' r = parentOf w r := by unfold parentOf; rw [regAt_congr h]

theorem jobsFor_congr {w w' : World} (h : w'.queue = w.queue) (r : RegId) (b : Binding) :
    jobsFor w' r b = jobsFor w r b := by unfold jobsFor; rw [h]

theorem producerRuns_congr {w w' : World} (h : w'.trace = w.trace) (r : RegId) (b : Binding) :
    producerRuns w' r b = producerRuns w r b := by unfold producerRuns; rw [h]

/- ### `setMemo` / `setFactory` observer behaviour -/

theorem regAt_modifyReg_ne (w : World) (r r' : RegId) (f : RegistryData → RegistryData)
    (h : r' ≠ r) : regAt (modifyReg w r f) r' = regAt w r' := by
  unfold modifyReg regAt
  cases hr : w.regs[r]? with
  | none => rfl
  | some reg => simp [List.getElem?_set_ne (fun he => h he.symm)]

theorem regAt_modifyReg_none (w : World) (r : RegId) (f : RegistryData → RegistryData)
    (h : regAt w r = none) : regAt (modifyReg w r f) r = none := by
  unfold regAt at h
  unfold modifyReg
  rw [h]
  exact h

theorem regAt_modifyReg_self (w : World) (r : RegId) (f : RegistryData → RegistryData)
    (reg : RegistryData) (h : regAt w r = some reg) :
    regAt (modifyReg w r f) r = some (f reg) := by
  unfold regAt at h
  unfold modifyReg regAt
  rw [h]
  have hlt : r < w.regs.length := by
    by_contra hge
    rw [List.getElem?_eq_none (Nat.le_of_not_lt hge)] at h
    exact Option.noConfusion h
  simp [List.getElem?_set_self hlt]

theorem memoOf_setMemo_self (w : World) (r : RegId) (b : Binding) (p : PromiseId)
    (reg : RegistryData) (h : regAt w r = some reg) :
    memoOf (setMemo w r b p) r b = some p := by
  unfold memoOf setMemo
  rw [regAt_modifyReg_self w r _ reg h]
  exact lookupA_setA_self ..

theorem memoOf_setMemo_ne (w : World) (r r' : RegId) (b b' : Binding) (p : PromiseId)
    (h : r' ≠ r ∨ b' ≠ b) : memoOf (setMemo w r b p) r' b' = memoOf w r' b' := by
  rcases h with h | h
  · unfold memoOf setMemo
    rw [regAt_modifyReg_ne w r r' _ h]
  · by_cases hr : r' = r
    · subst hr
      unfold memoOf setMemo
      cases hreg : regAt w r' with
      | none => rw [regAt_modifyReg_none w r' _ hreg]
      | some reg =>
          rw [regAt_modifyReg_self w r' _ reg hreg]
          exact lookupA_setA_ne _ _ _ _ (fun he => h he.symm)
    · unfold memoOf setMemo
      rw [regAt_modifyReg_ne w r r' _ hr]

theorem factoryOf_setMemo (w : World) (r r' : RegId) (b b' : Binding) (p : PromiseId) :
    factoryOf (setMemo w r b p) r' b' = factoryOf w r' b' := by
  by_cases hr : r' = r
  · subst hr
    unfold factoryOf setMemo
    cases hreg : regAt w r' with
    | none => rw [regAt_modifyReg_none w r' _ hreg]
    | some reg => rw [regAt_modifyReg_self w r' _ reg hreg]
  · unfold factoryOf setMemo
    rw [regAt_modifyReg_ne w r r' _ hr]

theorem parentOf_setMemo (w : World) (r r' : RegId) (b : Binding) (p : PromiseId) :
    parentOf (setMemo w r b p) r' = parentOf w r' := by
  by_cases hr : r' = r
  · subst hr
    unfold parentOf setMemo
    cases hreg : regAt w r' with
    | none => rw [regAt_modifyReg_none w r' _ hreg]
    | some reg => rw [regAt_modifyReg_self w r' _ reg hreg]
  · unfold parentOf setMemo
    rw [regAt_modifyReg_ne w r r' _ hr]

theorem memoOf_setFactory (w : World) (r r' : RegId) (b b' : Binding) (p : Producer) :
    memoOf (setFactory w r b p) r' b' = memoOf w r' b' := by
  by_cases hr : r' = r
  · subst hr
    unfold memoOf setFactory
    cases hreg : regAt w r' with
    | none => rw [regAt_modifyReg_none w r' _ hreg]
    | some reg => rw [regAt_modifyReg_self w r' _ reg hreg]
  · unfold memoOf setFactory
    rw [regAt_modifyReg_ne w r r' _ hr]

theorem parentOf_setFactory (w : World) (r r' : RegId) (b : Binding) (p : Producer) :
    parentOf (setFactory w r b p) r' = parentOf w r' := by
  by_cases hr : r' = r
  · subst hr
    unfold parentOf setFactory
    cases hreg : regAt w r' with
    | none => rw [regAt_modifyReg_none w r' _ hreg]
    | some reg => rw [regAt_modifyReg_self w r' _ reg hreg]
  · unfold parentOf setFactory
    rw [regAt_modifyReg_ne w r r' _ hr]

theorem factoryOf_setFactory_self (w : World) (r : RegId) (b : Binding) (p : Producer)
    (reg : RegistryData) (h : regAt w r = some reg) :
    factoryOf (setFactory w r b p) r b = some p := by
  unfold factoryOf setFactory
  rw [regAt_modifyReg_self w r _ reg h]
  exact lookupA_setA_self ..

theorem factoryOf_setFactory_ne (w : World) (r r' : RegId) (b b' : Binding) (p : Producer)
    (h : r' ≠ r ∨ b' ≠ b) : factoryOf (setFactory w r b p) r' b' = factoryOf w r' b' := by
  rcases h with h | h
  · unfold factoryOf setFactory
    rw [regAt_modifyReg_ne w r r' _ h]
  · by_cases hr : r' = r
    · subst hr
      unfold factoryOf setFactory
      cases hreg : regAt w r' with
      | none => rw [regAt_modifyReg_none w r' _ hreg]
      | some reg =>
          rw [regAt_modifyReg_self w r' _ reg hreg]
          exact lookupA_setA_ne _ _ _ _ (fun he => h he.symm)
    · unfold factoryOf setFactory
      rw [regAt_modifyReg_ne w r r' _ hr]

/- ### `jobsFor` / `producerRuns` arithmetic -/

theorem jobsFor_enqueue (w : World) (j : Job) (r : RegId) (b : Binding) :
    jobsFor (enqueue w j) r b =
      jobsFor w r b + (if isRunFor r b j then 1 else 0) := by
  unfold jobsFor
  rw [queue_enqueue, List.filter_append]
  by_cases h : isRunFor r b j <;> simp [h]

theorem producerRuns_addTrace (w : World) (r' r : RegId) (b' b : Binding) :
    producerRuns (addTrace w r' b') r b =
      producerRuns w r b + (if r' = r ∧ b' = b then 1 else 0) := by
  unfold producerRuns
  rw [trace_addTrace, List.filter_append]
  by_cases h1 : r' = r
  · by_cases h2 : b' = b <;> simp [h1, h2]
  · simp [h1]

/- ### Branch equations for the resolver -/

theorem getAux_memoHit (fuel : Nat) (w : World) (r : RegId) (b : Binding)
    (stack : List Binding) (hs : stack.contains b = false) (pid : PromiseId)
    (hm : memoOf w r b = some pid) :
    getAux (fuel + 1) w r b stack = (pid, w) := by
  conv_lhs => rw [getAux]
  rw [hs, hm]
  rfl

theorem getAux_factory (fuel : Nat) (w : World) (r : RegId) (b : Binding)
    (stack : List Binding) (hs : stack.contains b = false)
    (hm : memoOf w r b = none) (prod : Producer) (hf : factoryOf w r b = some prod) :
    getAux (fuel + 1) w r b stack =
      (w.promises.length,
       enqueue (setMemo (freshP w .pending).2 r b w.promises.length)
         (.runFactory r b (stack ++ [b]) prod w.promises.length)) := by
  conv_lhs => rw [getAux]
  rw [hs, hm, hf]
  rfl

theorem getAux_cycle_root (fuel : Nat) (w : World) (r : RegId) (b : Binding)
    (stack : List Binding) (hs : stack.contains b = true)
    (hp : parentOf w r = none) :
    getAux (fuel + 1) w r b stack =
      mkRejected w ("Recursion detected injecting " ++ bindingName b) := by
  conv_lhs => rw [getAux]
  rw [hs, hp]
  rfl

theorem getAux_cycle_parent (fuel : Nat) (w : World) (r p : RegId) (b : Binding)
    (stack : List Binding) (hs : stack.contains b = true)
    (hp : parentOf w r = some p) :
    getAux (fuel + 1) w r b stack = getAux fuel w p b [] := by
  conv_lhs => rw [getAux]
  rw [hs, hp]
  rfl

theorem getAux_miss_parent (fuel : Nat) (w : World) (r p : RegId) (b : Binding)
    (stack : List Binding) (hs : stack.contains b = false)
    (hm : memoOf w r b = none) (hf : factoryOf w r b = none)
    (hp : parentOf w r = some p) :
    getAux (fuel + 1) w r b stack = getAux fuel w p b [] := by
  conv_lhs => rw [getAux]
  rw [hs, hm, hf, hp]
  rfl

theorem getAux_unresolved (fuel : Nat) (w : World) (r : RegId) (b : Binding)
    (stack : List Binding) (hs : stack.contains b = false)
    (hm : memoOf w r b = none) (hf : factoryOf w r b = none)
    (hp : parentOf w r = none) :
    getAux (fuel + 1) w r b stack =
      mkRejected w ("Unable to resolve binding " ++ bindingName b) := by
  conv_lhs => rw [getAux]
  rw [hs, hm, hf, hp]
  rfl

/- ### The central invariant: at most one producer run per key per registry -/

/-- `INV w`: for every `(registry, key)` pair, a key with no memo entry has
neither queued nor completed producer runs, and the queued plus completed
producer runs never exceed one.  This is the single-producer-invocation
guarantee in inductive form. -/
def INV (w : World) : Prop :=
  ∀ r b, (memoOf w r b = none → jobsFor w r b = 0 ∧ producerRuns w r b = 0) ∧
    jobsFor w r b + producerRuns w r b ≤ 1

theorem INV_empty : INV World.empty := by
  intro r b
  constructor
  · intro _; constructor <;> rfl
  · simp [jobsFor, producerRuns, World.empty]

theorem INV_congr {w w' : World} (hr : w'.regs = w.regs) (hq : w'.queue = w.queue)
    (ht : w'.trace = w.trace) (h : INV w) : INV w' := by
  intro r b
  rw [memoOf_congr hr, jobsFor_congr hq, producerRuns_congr ht]
  exact h r b

/- ### The `Resolves` effect property

Every function on the resolution path (as opposed to the registration API
and the scheduler's job bookkeeping) has these effects only: it never
changes any `#factories` map or parent pointer, never removes or replaces
a memo entry, never queues a producer run for an already-memoized key,
never records a producer invocation, and preserves `INV`. -/
def Resolves (w w' : World) : Prop :=
  (∀ r b, factoryOf w' r b = factoryOf w r b) ∧
  (∀ r, regAt w r ≠ none → regAt w' r ≠ none ∧ parentOf w' r = parentOf w r) ∧
  (∀ r b p, memoOf w r b = some p → memoOf w' r b = some p) ∧
  (∀ r b, memoOf w r b ≠ none → jobsFor w' r b = jobsFor w r b) ∧
  (∀ r b, producerRuns w' r b = producerRuns w r b) ∧
  (INV w → INV w')

theorem Resolves.refl (w : World) : Resolves w w :=
  ⟨fun _ _ => rfl, fun _ h => ⟨h, rfl⟩, fun _ _ _ h => h, fun _ _ _ => rfl,
   fun _ _ => rfl, id⟩

theorem resolvesTrans {w1 w2 w3 : World} (h1 : Resolves w1 w2)
    (h2 : Resolves w2 w3) : Resolves w1 w3 := by
  obtain ⟨f1, g1, m1, j1, p1, i1⟩ := h1
  obtain ⟨f2, g2, m2, j2, p2, i2⟩ := h2
  refine ⟨fun r b => (f2 r b).trans (f1 r b), ?_, ?_, ?_, ?_, fun h => i2 (i1 h)⟩
  · intro r h
    obtain ⟨hne, hpar⟩ := g1 r h
    obtain ⟨hne2, hpar2⟩ := g2 r hne
    exact ⟨hne2, hpar2.trans hpar⟩
  · intro r b p h
    exact m2 r b p (m1 r b p h)
  · intro r b h
    obtain ⟨p, hp⟩ := Option.ne_none_iff_exists'.mp h
    have h2' : memoOf w2 r b ≠ none := by
      rw [m1 r b p hp]; exact Option.noConfusion
    exact (j2 r b h2').trans (j1 r b h)
  · intro r b
    exact (p2 r b).trans (p1 r b)

/-- A world change touching only the promise heap and the object heap is
on the resolution path. -/
theorem resolves_of_fields {w w' : World} (hr : w'.regs = w.regs)
    (hq : w'.queue = w.queue) (ht : w'.trace = w.trace) : Resolves w w' := by
  refine ⟨fun r b => factoryOf_congr hr r b, ?_, ?_, ?_, ?_, INV_congr hr hq ht⟩
  · intro r h
    rw [regAt_congr hr, parentOf_congr hr]
    exact ⟨h, rfl⟩
  · intro r b p h
    rw [memoOf_congr hr]; exact h
  · intro r b _
    exact jobsFor_congr hq r b
  · intro r b
    exact producerRuns_congr ht r b

/-- Queuing a job that is not a producer run is on the resolution path. -/
theorem resolves_enqueue_nonRun {w : World} {j : Job}
    (h : ∀ r b, isRunFor r b j = false) : Resolves w (enqueue w j) := by
  have hjobs : ∀ r b, jobsFor (enqueue w j) r b = jobsFor w r b := by
    intro r b
    rw [jobsFor_enqueue, h r b]
    simp
  refine ⟨fun r b => factoryOf_congr rfl r b, ?_, ?_, fun r b _ => hjobs r b, ?_, ?_⟩
  · intro r h'
    rw [regAt_congr rfl, parentOf_congr rfl]
    exact ⟨h', rfl⟩
  · intro r b p h'
    rw [memoOf_congr rfl]; exact h'
  · intro r b
    exact producerRuns_congr rfl r b
  · intro hi r b
    rw [memoOf_congr rfl, hjobs, producerRuns_congr rfl]
    exact hi r b

theorem regAt_setMemo_ne_none (w : World) (r r' : RegId) (b : Binding) (p : PromiseId)
    (h : regAt w r' ≠ none) : regAt (setMemo w r b p) r' ≠ none := by
  by_cases hr : r' = r
  · subst hr
    cases hreg : regAt w r' with
    | none => exact absurd hreg h
    | some reg =>
        unfold setMemo
        rw [regAt_modifyReg_self w r' _ reg hreg]
        exact Option.noConfusion
  · unfold setMemo
    rw [regAt_modifyReg_ne w r r' _ hr]
    exact h

/-- The memo-and-enqueue step of the factory branch of `#get` is on the
resolution path (the queued producer run is for a key that had no memo
entry and acquires one in the same step). -/
theorem resolves_getAux_factoryBranch (w : World) (r : RegId) (b : Binding)
    (stack : List Binding) (prod : Producer) (reg : RegistryData)
    (hreg : regAt w r = some reg) (hm : memoOf w r b = none) :
    Resolves w
      (enqueue (setMemo (freshP w .pending).2 r b w.promises.length)
        (.runFactory r b (stack ++ [b]) prod w.promises.length)) := by
  set p := w.promises.length
  set w1 := (freshP w (.pending)).2 with hw1
  set w2 := setMemo w1 r b p with hw2
  set j : Job := .runFactory r b (stack ++ [b]) prod p with hj
  have hregs1 : w1.regs = w.regs := rfl
  have hmemo1 : ∀ r' b', memoOf w1 r' b' = memoOf w r' b' :=
    fun r' b' => memoOf_congr hregs1 r' b'
  have hne : ∀ r' b', (r' ≠ r ∨ b' ≠ b) → memoOf w2 r' b' = memoOf w r' b' := by
    intro r' b' h
    rw [hw2, memoOf_setMemo_ne w1 r r' b b' p h, hmemo1]
  have hself : memoOf w2 r b = some p := by
    rw [hw2]
    exact memoOf_setMemo_self w1 r b p reg (by rw [regAt_congr hregs1]; exact hreg)
  have hfact : ∀ r' b', factoryOf (enqueue w2 j) r' b' = factoryOf w r' b' := by
    intro r' b'
    rw [factoryOf_congr (regs_enqueue w2 j) r' b', hw2, factoryOf_setMemo,
      factoryOf_congr hregs1]
  have hqueue2 : w2.queue = w.queue := by rw [hw2, hw1]; simp
  have htrace2 : w2.trace = w.trace := by rw [hw2, hw1]; simp
  have hjobs : ∀ r' b', jobsFor (enqueue w2 j) r' b' =
      jobsFor w r' b' + (if isRunFor r' b' j then 1 else 0) := by
    intro r' b'
    rw [jobsFor_enqueue, jobsFor_congr hqueue2]
  have hruns : ∀ r' b', producerRuns (enqueue w2 j) r' b' = producerRuns w r' b' := by
    intro r' b'
    rw [producerRuns_congr (trace_enqueue w2 j), producerRuns_congr htrace2]
  have hpairne : ∀ r' b', (r' ≠ r ∨ b' ≠ b) → isRunFor r' b' j = false := by
    intro r' b' h
    rw [hj]
    unfold isRunFor
    rcases h with h | h
    · have he : (r = r') = False := eq_false (fun he => h he.symm)
      simp [he]
    · have he : (b = b') = False := eq_false (fun he => h he.symm)
      simp [he]
  refine ⟨hfact, ?_, ?_, ?_, hruns, ?_⟩
  · intro r' h
    constructor
    · rw [regAt_congr (regs_enqueue w2 j), hw2]
      exact regAt_setMemo_ne_none w1 r r' b p (by rw [regAt_congr hregs1]; exact h)
    · rw [parentOf_congr (regs_enqueue w2 j), hw2, parentOf_setMemo, parentOf_congr hregs1]
  · intro r' b' q hq
    have hpair : r' ≠ r ∨ b' ≠ b := by
      by_contra hc
      push_neg at hc
      obtain ⟨h1, h2⟩ := hc
      subst h1; subst h2
      rw [hq] at hm
      exact Option.noConfusion hm
    rw [memoOf_congr (regs_enqueue w2 j), hne r' b' hpair]
    exact hq
  · intro r' b' hmem
    have hpair : r' ≠ r ∨ b' ≠ b := by
      by_contra hc
      push_neg at hc
      obtain ⟨h1, h2⟩ := hc
      subst h1; subst h2
      exact hmem hm
    rw [hjobs, hpairne r' b' hpair]
    simp
  · intro hi r' b'
    by_cases hpair : r' = r ∧ b' = b
    · obtain ⟨h1, h2⟩ := hpair
      subst h1; subst h2
      have h0 := ((hi r' b').1 hm)
      constructor
      · intro hmem
        rw [memoOf_congr (regs_enqueue w2 j), hself] at hmem
        exact Option.noConfusion hmem
      · rw [hjobs, hruns, h0.1, h0.2]
        simp [hj, isRunFor]
    · rw [not_and_or] at hpair
      have hpair' : r' ≠ r ∨ b' ≠ b := hpair
      constructor
      · intro hmem
        rw [memoOf_congr (regs_enqueue w2 j), hne r' b' hpair'] at hmem
        rw [hjobs, hpairne r' b' hpair', hruns]
        have := (hi r' b').1 hmem
        simp [this.1, this.2]
      · rw [hjobs, hpairne r' b' hpair', hruns]
        simpa using (hi r' b').2

/-- `#get` is on the resolution path. -/
theorem resolves_getAux (fuel : Nat) (w : World) (r : RegId) (b : Binding)
    (stack : List Binding) : Resolves w (getAux fuel w r b stack).2 := by
  induction fuel generalizing w r b stack with
  | zero => exact resolves_of_fields rfl rfl rfl
  | succ n ih =>
      by_cases hs : stack.contains b
      · cases hp : parentOf w r with
        | some p =>
            rw [getAux_cycle_parent n w r p b stack hs hp]
            exact ih w p b []
        | none =>
            rw [getAux_cycle_root n w r b stack hs hp]
            exact resolves_of_fields rfl rfl rfl
      · rw [Bool.not_eq_true] at hs
        cases hm : memoOf w r b with
        | some pid =>
            rw [getAux_memoHit n w r b stack hs pid hm]
            exact Resolves.refl w
        | none =>
            cases hf : factoryOf w r b with
            | some prod =>
                rw [getAux_factory n w r b stack hs hm prod hf]
                have hreg : ∃ reg, regAt w r = some reg := by
                  unfold factoryOf at hf
                  cases hr : regAt w r with
                  | none => rw [hr] at hf; exact Option.noConfusion hf
                  | some reg => exact ⟨reg, rfl⟩
                obtain ⟨reg, hreg⟩ := hreg
                exact resolves_getAux_factoryBranch w r b stack prod reg hreg hm
            | none =>
                cases hp : parentOf w r with
                | some p =>
                    rw [getAux_miss_parent n w r p b stack hs hm hf hp]
                    exact ih w p b []
                | none =>
                    rw [getAux_unresolved n w r b stack hs hm hf hp]
                    exact resolves_of_fields rfl rfl rfl

theorem resolves_getF (w : World) (r : RegId) (b : Binding) (stack : List Binding) :
    Resolves w (getF w r b stack).2 :=
  resolves_getAux w.regs.length w r b stack

/- ### Effect lemmas for the rest of the resolution pipeline -/

theorem INV_of_obs {w w' : World}
    (hm : ∀ r b, memoOf w' r b = memoOf w r b)
    (hj : ∀ r b, jobsFor w' r b = jobsFor w r b)
    (hp : ∀ r b, producerRuns w' r b = producerRuns w r b)
    (h : INV w) : INV w' := by
  intro r b
  rw [hm, hj, hp]
  exact h r b

theorem regAt_appendReg_lt (w : World) (rg : RegistryData) (r : RegId)
    (h : r < w.regs.length) :
    regAt { w with regs := w.regs ++ [rg] } r = regAt w r := by
  unfold regAt
  exact List.getElem?_append_left h

theorem regAt_appendReg_self (w : World) (rg : RegistryData) :
    regAt { w with regs := w.regs ++ [rg] } w.regs.length = some rg := by
  unfold regAt
  exact List.getElem?_concat_length w.regs rg

theorem regAt_ge_none (w : World) (r : RegId) (h : w.regs.length ≤ r) :
    regAt w r = none := by
  unfold regAt
  exact List.getElem?_eq_none h

/-- Appending a fresh (empty-mapped) registry is on the resolution path. -/
theorem resolves_appendReg (w : World) (rg : RegistryData)
    (hf : rg.factories = []) (hp : rg.promises = []) :
    Resolves w { w with regs := w.regs ++ [rg] } := by
  have hmemo : ∀ r b, memoOf { w with regs := w.regs ++ [rg] } r b = memoOf w r b := by
    intro r b
    unfold memoOf
    rcases Nat.lt_trichotomy r w.regs.length with h | h | h
    · rw [regAt_appendReg_lt w rg r h]
    · subst h
      rw [regAt_appendReg_self, regAt_ge_none w w.regs.length (Nat.le_refl _)]
      simp [hp, lookupA]
    · rw [regAt_ge_none w r (Nat.le_of_lt h),
        regAt_ge_none { w with regs := w.regs ++ [rg] } r (by simp; omega)]
  have hfact : ∀ r b, factoryOf { w with regs := w.regs ++ [rg] } r b = factoryOf w r b := by
    intro r b
    unfold factoryOf
    rcases Nat.lt_trichotomy r w.regs.length with h | h | h
    · rw [regAt_appendReg_lt w rg r h]
    · subst h
      rw [regAt_appendReg_self, regAt_ge_none w w.regs.length (Nat.le_refl _)]
      simp [hf, lookupA]
    · rw [regAt_ge_none w r (Nat.le_of_lt h),
        regAt_ge_none { w with regs := w.regs ++ [rg] } r (by simp; omega)]
  refine ⟨hfact, ?_, ?_, ?_, ?_, ?_⟩
  · intro r h
    have hlt : r < w.regs.length := by
      by_contra hge
      exact h (regAt_ge_none w r (Nat.le_of_not_lt hge))
    rw [regAt_appendReg_lt w rg r hlt]
    unfold parentOf
    rw [regAt_appendReg_lt w rg r hlt]
    exact ⟨h, rfl⟩
  · intro r b p h
    rw [hmemo]; exact h
  · intro r b _
    exact jobsFor_congr rfl r b
  · intro r b
    exact producerRuns_congr rfl r b
  · exact INV_of_obs hmemo (fun r b => jobsFor_congr rfl r b)
      (fun r b => producerRuns_congr rfl r b)

theorem resolves_childOf (w : World) (r : RegId) : Resolves w (childOf w r).2 :=
  resolves_appendReg w ⟨[], [], some r⟩ rfl rfl

theorem resolves_newInjector (w : World) : Resolves w (Injector.newInjector w).2 :=
  resolves_appendReg w ⟨[], [], none⟩ rfl rfl

theorem resolves_phase1 (r : RegId) (stack : List Binding) (keys : List InjectKey) :
    ∀ w, Resolves w (phase1 r stack w keys).1 := by
  induction keys with
  | nil => intro w; exact Resolves.refl w
  | cons k rest ih =>
      intro w
      cases k with
      | plain b =>
          show Resolves w (phase1 r stack w (.plain b :: rest)).1
          have : (phase1 r stack w (.plain b :: rest)).1 =
              (phase1 r stack (getF w r b stack).2 rest).1 := rfl
          rw [this]
          exact resolvesTrans (resolves_getF w r b stack) (ih _)
      | promised b =>
          have : (phase1 r stack w (.promised b :: rest)).1 =
              (phase1 r stack w rest).1 := rfl
          rw [this]
          exact ih w

theorem resolves_injectStart (w : World) (r : RegId) (i : Injectable)
    (stack : List Binding) : Resolves w (injectStart w r i stack).2 := by
  unfold injectStart
  cases i.inject with
  | none => exact resolves_of_fields rfl rfl rfl
  | some keys =>
      refine resolvesTrans (resolvesTrans (resolves_phase1 r stack keys w)
        (resolves_of_fields rfl rfl rfl)) (resolves_enqueue_nonRun ?_)
      intro r' b'
      rfl

theorem finishMap_nil (r : RegId) (stack : List Binding) (w : World) :
    finishMap r stack w [] = (w, .ok []) := rfl

theorem finishMap_cons_marker (r : RegId) (stack : List Binding) (w : World)
    (b : Binding) (rest : List FinVal) :
    finishMap r stack w (.marker b :: rest) =
      (let pw := getF w r b stack
       let rec1 := finishMap r stack pw.2 rest
       match rec1.2 with
       | .ok args => (rec1.1, Except.ok (Value.promiseV pw.1 :: args))
       | .error e => (rec1.1, Except.error e)) := rfl

theorem finishMap_cons_val (r : RegId) (stack : List Binding) (w : World)
    (v : Value) (rest : List FinVal) :
    finishMap r stack w (.val v :: rest) =
      (if isObjectLike v then
        if hasPromisedBinding v then
          (let pw := getF w r (markerKey v) stack
           let rec1 := finishMap r stack pw.2 rest
           match rec1.2 with
           | .ok args => (rec1.1, Except.ok (Value.promiseV pw.1 :: args))
           | .error e => (rec1.1, Except.error e))
        else
          (let rec1 := finishMap r stack w rest
           match rec1.2 with
           | .ok args => (rec1.1, Except.ok (v :: args))
           | .error e => (rec1.1, Except.error e))
      else
        (w, .error (.err ("TypeError: Cannot use 'in' operator to search for 'Symbol(siringa.promisedBinding)' in " ++ "primitive")))) := rfl

theorem resolves_finishMap (r : RegId) (stack : List Binding) (fvals : List FinVal) :
    ∀ w, Resolves w (finishMap r stack w fvals).1 := by
  induction fvals with
  | nil => intro w; exact Resolves.refl w
  | cons fv rest ih =>
      intro w
      cases fv with
      | marker b =>
          have h1 : (finishMap r stack w (.marker b :: rest)).1 =
              (finishMap r stack (getF w r b stack).2 rest).1 := by
            rw [finishMap_cons_marker]
            cases hx : (finishMap r stack (getF w r b stack).2 rest).2 <;> simp [hx]
          rw [h1]
          exact resolvesTrans (resolves_getF w r b stack) (ih _)
      | val v =>
          by_cases ho : isObjectLike v
          · by_cases hb : hasPromisedBinding v
            · have h1 : (finishMap r stack w (.val v :: rest)).1 =
                  (finishMap r stack (getF w r (markerKey v) stack).2 rest).1 := by
                rw [finishMap_cons_val, if_pos ho, if_pos hb]
                cases hx : (finishMap r stack (getF w r (markerKey v) stack).2 rest).2 <;>
                  simp [hx]
              rw [h1]
              exact resolvesTrans (resolves_getF w r (markerKey v) stack) (ih _)
            · have h1 : (finishMap r stack w (.val v :: rest)).1 =
                  (finishMap r stack w rest).1 := by
                rw [finishMap_cons_val, if_pos ho, if_neg hb]
                cases hx : (finishMap r stack w rest).2 <;> simp [hx]
              rw [h1]
              exact ih w
          · have h1 : (finishMap r stack w (.val v :: rest)).1 = w := by
              rw [finishMap_cons_val, if_neg ho]
            rw [h1]
            exact Resolves.refl w

theorem resolves_runFCode (w : World) (r : RegId) (stack : List Binding)
    (f : FactoryCode) : Resolves w (runFCode (factoryInjections r stack) w f).2 := by
  cases f with
  | ret v => exact Resolves.refl w
  | retGet b => exact resolves_getF w r b stack
  | retInject i => exact resolves_injectStart w r i stack
  | retNew cid => exact resolves_of_fields rfl rfl rfl
  | retChild => exact resolves_childOf w r

theorem resolves_make (w : World) (r : RegId) (f : FactoryCode) :
    Resolves w (Injector.make w r f).2 :=
  resolves_runFCode w r [] f

/- ### Effect lemmas for the registration API -/

theorem memoOf_use (w : World) (r r' : RegId) (b b' : Binding) (v : Value)
    (h : r' ≠ r ∨ b' ≠ b) : memoOf (Injector.use w r b v) r' b' = memoOf w r' b' := by
  unfold Injector.use
  cases v <;>
    simp only [memoOf_setMemo_ne _ _ _ _ _ _ h] <;>
    exact memoOf_congr rfl r' b'

theorem queue_use (w : World) (r : RegId) (b : Binding) (v : Value) :
    (Injector.use w r b v).queue = w.queue := by
  unfold Injector.use
  cases v <;> simp

theorem trace_use (w : World) (r : RegId) (b : Binding) (v : Value) :
    (Injector.use w r b v).trace = w.trace := by
  unfold Injector.use
  cases v <;> simp

theorem memoOf_use_self (w : World) (r : RegId) (b : Binding) (v : Value)
    (reg : RegistryData) (hreg : regAt w r = some reg) :
    memoOf (Injector.use w r b v) r b ≠ none := by
  unfold Injector.use
  cases v with
  | promiseV q =>
      rw [memoOf_setMemo_self w r b q reg hreg]
      exact Option.noConfusion
  | _ =>
      first
      | (rw [memoOf_setMemo_self _ r b _ reg (by rw [regAt_congr rfl]; exact hreg)]
         exact Option.noConfusion)

theorem INV_use (w : World) (r : RegId) (b : Binding) (v : Value) (h : INV w) :
    INV (Injector.use w r b v) := by
  intro r' b'
  have hq := jobsFor_congr (queue_use w r b v) r' b'
  have ht := producerRuns_congr (trace_use w r b v) r' b'
  rw [hq, ht]
  by_cases hpair : r' = r ∧ b' = b
  · obtain ⟨h1, h2⟩ := hpair
    subst h1; subst h2
    constructor
    · intro hmem
      cases hreg : regAt w r' with
      | none =>
          have : memoOf (Injector.use w r' b' v) r' b' = memoOf w r' b' := by
            unfold Injector.use memoOf
            cases v <;>
              first
              | (unfold setMemo
                 rw [regAt_modifyReg_none _ _ _ (by rw [regAt_congr rfl]; exact hreg),
                   hreg])
          rw [this] at hmem
          exact (h r' b').1 hmem
      | some reg => exact absurd hmem (memoOf_use_self w r' b' v reg hreg)
    · exact (h r' b').2
  · rw [not_and_or] at hpair
    rw [memoOf_use w r r' b b' v hpair]
    exact h r' b'

theorem INV_setFactory (w : World) (r : RegId) (b : Binding) (p : Producer)
    (h : INV w) : INV (setFactory w r b p) :=
  INV_of_obs (fun r' b' => memoOf_setFactory w r r' b b' p)
    (fun r' b' => jobsFor_congr (queue_setFactory w r b p) r' b')
    (fun r' b' => producerRuns_congr (trace_setFactory w r b p) r' b') h

/- ### Scheduler effect lemmas -/

theorem findRunnable_spec (w : World) : ∀ (q : List Job) (j : Job) (rest : List Job),
    findRunnable w q = some (j, rest) →
    ∃ l₁ l₂, q = l₁ ++ j :: l₂ ∧ rest = l₁ ++ l₂ := by
  intro q
  induction q with
  | nil => intro j rest h; exact absurd h (by simp [findRunnable])
  | cons jh tl ih =>
      intro j rest h
      unfold findRunnable at h
      by_cases hr : runnableJob w jh
      · rw [if_pos hr] at h
        injection h with h'
        obtain ⟨h1, h2⟩ := Prod.mk.injEq .. ▸ h'
        subst h1; subst h2
        exact ⟨[], tl, rfl, rfl⟩
      · rw [if_neg hr] at h
        cases hm : findRunnable w tl with
        | none => rw [hm] at h; exact absurd h (by simp)
        | some pr =>
            obtain ⟨j', rest'⟩ := pr
            rw [hm] at h
            injection h with h'
            obtain ⟨h1, h2⟩ := Prod.mk.injEq .. ▸ h'
            subst h1; subst h2
            obtain ⟨l₁, l₂, hq, hrest⟩ := ih j' rest' hm
            exact ⟨jh :: l₁, l₂, by rw [hq]; rfl, by rw [hrest]; rfl⟩

theorem jobsFor_removeMid (w : World) (l₁ l₂ : List Job) (j : Job) (r : RegId)
    (b : Binding) (hq : w.queue = l₁ ++ j :: l₂) :
    jobsFor w r b =
      jobsFor { w with queue := l₁ ++ l₂ } r b + (if isRunFor r b j then 1 else 0) := by
  unfold jobsFor
  rw [hq]
  show ((l₁ ++ j :: l₂).filter (isRunFor r b)).length =
    ((l₁ ++ l₂).filter (isRunFor r b)).length + _
  rw [List.filter_append, List.filter_append, List.filter_cons]
  by_cases h : isRunFor r b j <;> simp [h] <;> omega

theorem isRunFor_self (r : RegId) (b : Binding) (stack : List Binding)
    (prod : Producer) (q : PromiseId) :
    isRunFor r b (.runFactory r b stack prod q) = true := by
  simp [isRunFor]

theorem isRunFor_injectAll (r r' : RegId) (b : Binding) (i : Injectable)
    (stack : List Binding) (poss : List AwaitedPos) (q : PromiseId) :
    isRunFor r b (.injectAll r' i stack poss q) = false := rfl

/- Equation lemmas for `execJob`. -/

theorem execJob_runFactory_eq (w : World) (r : RegId) (b : Binding)
    (stack : List Binding) (prod : Producer) (q : PromiseId) :
    execJob w (.runFactory r b stack prod q) =
      (match prod with
       | .ofFactory f =>
           let vw := runFCode (factoryInjections r stack) (addTrace w r b) f
           settleWith vw.2 q vw.1
       | .ofInjectable i =>
           let pw := injectStart (addTrace w r b) r i stack
           settleWith pw.2 q (.promiseV pw.1)) := rfl

theorem execJob_injectAll_eq (w : World) (r : RegId) (i : Injectable)
    (stack : List Binding) (poss : List AwaitedPos) (q : PromiseId) :
    execJob w (.injectAll r i stack poss q) =
      (match awaitedResults w poss with
       | .error reason => rejectP w q reason
       | .ok fvals =>
           let fw := finishMap r stack w fvals
           match fw.2 with
           | .error e => rejectP fw.1 q e
           | .ok args =>
               let ow := allocObj fw.1 i.cid args
               settleWith ow.2 q (.obj ow.1)) := rfl

theorem INV_addTrace_fresh (w : World) (r₀ : RegId) (b₀ : Binding)
    (hINV : INV w) (hmem : memoOf w r₀ b₀ ≠ none) (hjobs : jobsFor w r₀ b₀ = 0)
    (hruns : producerRuns w r₀ b₀ = 0) : INV (addTrace w r₀ b₀) := by
  intro r b
  have hmemo : memoOf (addTrace w r₀ b₀) r b = memoOf w r b := memoOf_congr rfl r b
  have hjq : jobsFor (addTrace w r₀ b₀) r b = jobsFor w r b := jobsFor_congr rfl r b
  rw [hmemo, hjq, producerRuns_addTrace]
  by_cases hpair : r₀ = r ∧ b₀ = b
  · obtain ⟨h1, h2⟩ := hpair
    subst h1; subst h2
    rw [if_pos ⟨rfl, rfl⟩]
    constructor
    · intro hm; exact absurd hm hmem
    · rw [hjobs, hruns]
  · rw [if_neg hpair]
    simpa using hINV r b

theorem INV_execJob_runFactory (w : World) (r₀ : RegId) (b₀ : Binding)
    (stack : List Binding) (prod : Producer) (q₀ : PromiseId)
    (hINV : INV w) (hmem : memoOf w r₀ b₀ ≠ none) (hjobs : jobsFor w r₀ b₀ = 0)
    (hruns : producerRuns w r₀ b₀ = 0) :
    INV (execJob w (.runFactory r₀ b₀ stack prod q₀)) := by
  have h1 : INV (addTrace w r₀ b₀) := INV_addTrace_fresh w r₀ b₀ hINV hmem hjobs hruns
  rw [execJob_runFactory_eq]
  cases prod with
  | ofFactory f =>
      show INV (settleWith (runFCode (factoryInjections r₀ stack) (addTrace w r₀ b₀) f).2 q₀
        (runFCode (factoryInjections r₀ stack) (addTrace w r₀ b₀) f).1)
      have h2 := (resolves_runFCode (addTrace w r₀ b₀) r₀ stack f).2.2.2.2.2 h1
      exact INV_congr (regs_settleWith ..) (queue_settleWith ..) (trace_settleWith ..) h2
  | ofInjectable i =>
      show INV (settleWith (injectStart (addTrace w r₀ b₀) r₀ i stack).2 q₀ _)
      have h2 := (resolves_injectStart (addTrace w r₀ b₀) r₀ i stack).2.2.2.2.2 h1
      exact INV_congr (regs_settleWith ..) (queue_settleWith ..) (trace_settleWith ..) h2

theorem INV_execJob_injectAll (w : World) (r : RegId) (i : Injectable)
    (stack : List Binding) (poss : List AwaitedPos) (q : PromiseId)
    (hINV : INV w) : INV (execJob w (.injectAll r i stack poss q)) := by
  rw [execJob_injectAll_eq]
  cases awaitedResults w poss with
  | error reason =>
      exact INV_congr (regs_rejectP ..) (queue_rejectP ..) (trace_rejectP ..) hINV
  | ok fvals =>
      have h2 := (resolves_finishMap r stack fvals w).2.2.2.2.2 hINV
      cases hx : (finishMap r stack w fvals).2 with
      | error e =>
          show INV (match (finishMap r stack w fvals).2 with
            | .error e => rejectP (finishMap r stack w fvals).1 q e
            | .ok args => _)
          rw [hx]
          exact INV_congr (regs_rejectP ..) (queue_rejectP ..) (trace_rejectP ..) h2
      | ok args =>
          show INV (match (finishMap r stack w fvals).2 with
            | .error e => rejectP (finishMap r stack w fvals).1 q e
            | .ok args =>
                let ow := allocObj (finishMap r stack w fvals).1 i.cid args
                settleWith ow.2 q (.obj ow.1))
          rw [hx]
          have h3 : INV (allocObj (finishMap r stack w fvals).1 i.cid args).2 :=
            INV_congr rfl rfl rfl h2
          exact INV_congr (regs_settleWith ..) (queue_settleWith ..) (trace_settleWith ..) h3

theorem INV_schedStep {w w' : World} (h : schedStep w = some w') (hINV : INV w) :
    INV w' := by
  unfold schedStep at h
  cases hfr : findRunnable w w.queue with
  | none => rw [hfr] at h; exact absurd h (by simp)
  | some pr =>
      obtain ⟨j, rest⟩ := pr
      rw [hfr] at h
      injection h with h'
      subst h'
      obtain ⟨l₁, l₂, hq, hrest⟩ := findRunnable_spec w w.queue j rest hfr
      subst hrest
      have hINVm : INV { w with queue := l₁ ++ l₂ } := by
        intro r b
        have hj := jobsFor_removeMid w l₁ l₂ j r b hq
        have hmeq : memoOf { w with queue := l₁ ++ l₂ } r b = memoOf w r b :=
          memoOf_congr rfl r b
        have hreq : producerRuns { w with queue := l₁ ++ l₂ } r b = producerRuns w r b :=
          producerRuns_congr rfl r b
        rw [hmeq, hreq]
        constructor
        · intro hm
          obtain ⟨hj0, hr0⟩ := (hINV r b).1 hm
          constructor
          · omega
          · exact hr0
        · have := (hINV r b).2
          omega
      cases j with
      | runFactory r₀ b₀ stack prod q₀ =>
          have hcount : jobsFor w r₀ b₀ =
              jobsFor { w with queue := l₁ ++ l₂ } r₀ b₀ + 1 := by
            rw [jobsFor_removeMid w l₁ l₂ _ r₀ b₀ hq, isRunFor_self]
            simp
          have hsum := (hINV r₀ b₀).2
          have hjm : jobsFor { w with queue := l₁ ++ l₂ } r₀ b₀ = 0 := by omega
          have hrw : producerRuns w r₀ b₀ = 0 := by omega
          have hmem : memoOf w r₀ b₀ ≠ none := by
            intro hm
            have := ((hINV r₀ b₀).1 hm).1
            omega
          exact INV_execJob_runFactory _ r₀ b₀ stack prod q₀ hINVm
            (by rw [memoOf_congr rfl]; exact hmem) hjm
            (by rw [producerRuns_congr rfl]; exact hrw)
      | injectAll r₀ i stack poss q₀ =>
          exact INV_execJob_injectAll _ r₀ i stack poss q₀ hINVm

/- ### `Tame`: no reachable operation of the resolution surface mutates
registrations -/

/-- `Tame w w'`: the change from `w` to `w'` leaves every registry's
`#factories` map unchanged, leaves every existing registry in place with
its parent pointer unchanged, and keeps every existing memo entry. -/
def Tame (w w' : World) : Prop :=
  (∀ r b, factoryOf w' r b = factoryOf w r b) ∧
  (∀ r, regAt w r ≠ none → regAt w' r ≠ none ∧ parentOf w' r = parentOf w r) ∧
  (∀ r b p, memoOf w r b = some p → memoOf w' r b = some p)

theorem tame_of_resolves {w w' : World} (h : Resolves w w') : Tame w w' :=
  ⟨h.1, h.2.1, h.2.2.1⟩

theorem tame_of_regs {w w' : World} (h : w'.regs = w.regs) : Tame w w' := by
  refine ⟨factoryOf_congr h, ?_, ?_⟩
  · intro r hr
    rw [regAt_congr h, parentOf_congr h]
    exact ⟨hr, rfl⟩
  · intro r b p hp
    rw [memoOf_congr h]
    exact hp

theorem tameTrans {w1 w2 w3 : World} (h1 : Tame w1 w2) (h2 : Tame w2 w3) :
    Tame w1 w3 := by
  obtain ⟨f1, g1, m1⟩ := h1
  obtain ⟨f2, g2, m2⟩ := h2
  refine ⟨fun r b => (f2 r b).trans (f1 r b), ?_, fun r b p h => m2 r b p (m1 r b p h)⟩
  intro r h
  obtain ⟨hne, hpar⟩ := g1 r h
  obtain ⟨hne2, hpar2⟩ := g2 r hne
  exact ⟨hne2, hpar2.trans hpar⟩

theorem tame_execJob (w : World) (j : Job) : Tame w (execJob w j) := by
  cases j with
  | runFactory r b stack prod q =>
      rw [execJob_runFactory_eq]
      cases prod with
      | ofFactory f =>
          show Tame w (settleWith (runFCode (factoryInjections r stack) (addTrace w r b) f).2
            q (runFCode (factoryInjections r stack) (addTrace w r b) f).1)
          have h1 : Tame w (addTrace w r b) := tame_of_regs rfl
          have h2 := tame_of_resolves (resolves_runFCode (addTrace w r b) r stack f)
          have h3 : Tame (runFCode (factoryInjections r stack) (addTrace w r b) f).2
              (settleWith (runFCode (factoryInjections r stack) (addTrace w r b) f).2 q
                (runFCode (factoryInjections r stack) (addTrace w r b) f).1) :=
            tame_of_regs (regs_settleWith ..)
          exact tameTrans (tameTrans h1 h2) h3
      | ofInjectable i =>
          show Tame w (settleWith (injectStart (addTrace w r b) r i stack).2
            q (.promiseV (injectStart (addTrace w r b) r i stack).1))
          have h1 : Tame w (addTrace w r b) := tame_of_regs rfl
          have h2 := tame_of_resolves (resolves_injectStart (addTrace w r b) r i stack)
          have h3 : Tame (injectStart (addTrace w r b) r i stack).2
              (settleWith (injectStart (addTrace w r b) r i stack).2 q
                (.promiseV (injectStart (addTrace w r b) r i stack).1)) :=
            tame_of_regs (regs_settleWith ..)
          exact tameTrans (tameTrans h1 h2) h3
  | injectAll r i stack poss q =>
      rw [execJob_injectAll_eq]
      cases awaitedResults w poss with
      | error reason =>
          exact tame_of_resolves (resolves_of_fields rfl rfl rfl)
      | ok fvals =>
          cases hx : (finishMap r stack w fvals).2 with
          | error e =>
              show Tame w (match (finishMap r stack w fvals).2 with
                | .error e => rejectP (finishMap r stack w fvals).1 q e
                | .ok args =>
                    let ow := allocObj (finishMap r stack w fvals).1 i.cid args
                    settleWith ow.2 q (.obj ow.1))
              rw [hx]
              exact tame_of_resolves (resolvesTrans (resolves_finishMap r stack fvals w)
                (resolves_of_fields rfl rfl rfl))
          | ok args =>
              show Tame w (match (finishMap r stack w fvals).2 with
                | .error e => rejectP (finishMap r stack w fvals).1 q e
                | .ok args =>
                    let ow := allocObj (finishMap r stack w fvals).1 i.cid args
                    settleWith ow.2 q (.obj ow.1))
              rw [hx]
              exact tame_of_resolves (resolvesTrans (resolves_finishMap r stack fvals w)
                (resolvesTrans (resolves_of_fields rfl rfl rfl)
                  (resolves_of_fields (regs_settleWith ..) (queue_settleWith ..)
                    (trace_settleWith ..))))

theorem tame_schedStep {w w' : World} (h : schedStep w = some w') : Tame w w' := by
  unfold schedStep at h
  cases hfr : findRunnable w w.queue with
  | none => rw [hfr] at h; exact absurd h (by simp)
  | some pr =>
      obtain ⟨j, rest⟩ := pr
      rw [hfr] at h
      injection h with h'
      subst h'
      exact tameTrans (tame_of_resolves (resolves_of_fields rfl rfl rfl))
        (tame_execJob { w with queue := rest } j)

/- ### The client-visible step relation and reachability -/

/-- One step of the system: any public API call with any arguments, or one
scheduler (microtask) step. -/
inductive StepR : World → World → Prop
  | newInj (w : World) : StepR w (Injector.newInjector w).2
  | child (w : World) (r : RegId) : StepR w (Injector.injector w r).2
  | bindOp (w : World) (r : RegId) (b : Binding) (i : Injectable) :
      StepR w (Injector.bind w r b i)
  | createOp (w : World) (r : RegId) (b : Binding) (f : FactoryCode) :
      StepR w (Injector.create w r b f)
  | useOp (w : World) (r : RegId) (b : Binding) (v : Value) :
      StepR w (Injector.use w r b v)
  | getOp (w : World) (r : RegId) (b : Binding) : StepR w (Injector.get w r b).2
  | injectOp (w : World) (r : RegId) (i : Injectable) :
      StepR w (Injector.inject w r i).2
  | makeOp (w : World) (r : RegId) (f : FactoryCode) :
      StepR w (Injector.make w r f).2
  | sched (w w' : World) : schedStep w = some w' → StepR w w'

/-- Worlds reachable by client programs from the empty world. -/
def Reachable (w : World) : Prop := Relation.ReflTransGen StepR World.empty w

/-- `w'` is a possible future of `w`. -/
def Evolves (w w' : World) : Prop := Relation.ReflTransGen StepR w w'

theorem INV_step {w w' : World} (h : StepR w w') (hINV : INV w) : INV w' := by
  cases h with
  | newInj => exact (resolves_newInjector w).2.2.2.2.2 hINV
  | child r => exact (resolves_childOf w r).2.2.2.2.2 hINV
  | bindOp r b i => exact INV_setFactory w r b _ hINV
  | createOp r b f => exact INV_setFactory w r b _ hINV
  | useOp r b v => exact INV_use w r b v hINV
  | getOp r b => exact (resolves_getF w r b []).2.2.2.2.2 hINV
  | injectOp r i => exact (resolves_injectStart w r i []).2.2.2.2.2 hINV
  | makeOp r f => exact (resolves_make w r f).2.2.2.2.2 hINV
  | sched w2 hs => exact INV_schedStep hs hINV

theorem INV_reachable {w : World} (h : Reachable w) : INV w := by
  induction h with
  | refl => exact INV_empty
  | tail hsteps hstep ih => exact INV_step hstep ih

/- ### Preservation of "memoized, no queued producer run" -/

theorem NN_of_resolves {w w' : World} (h : Resolves w w') (r : RegId) (b : Binding)
    (hmem : memoOf w r b ≠ none) :
    memoOf w' r b ≠ none ∧ jobsFor w' r b = jobsFor w r b ∧
      producerRuns w' r b = producerRuns w r b := by
  obtain ⟨p, hp⟩ := Option.ne_none_iff_exists'.mp hmem
  refine ⟨?_, h.2.2.2.1 r b hmem, h.2.2.2.2.1 r b⟩
  rw [h.2.2.1 r b p hp]
  exact Option.noConfusion

theorem resolves_execJob_injectAll (w : World) (r : RegId) (i : Injectable)
    (stack : List Binding) (poss : List AwaitedPos) (q : PromiseId) :
    Resolves w (execJob w (.injectAll r i stack poss q)) := by
  rw [execJob_injectAll_eq]
  cases awaitedResults w poss with
  | error reason =>
      exact resolves_of_fields (regs_rejectP ..) (queue_rejectP ..) (trace_rejectP ..)
  | ok fvals =>
      cases hx : (finishMap r stack w fvals).2 with
      | error e =>
          show Resolves w (match (finishMap r stack w fvals).2 with
            | .error e => rejectP (finishMap r stack w fvals).1 q e
            | .ok args =>
                let ow := allocObj (finishMap r stack w fvals).1 i.cid args
                settleWith ow.2 q (.obj ow.1))
          rw [hx]
          exact resolvesTrans (resolves_finishMap r stack fvals w)
            (resolves_of_fields (regs_rejectP ..) (queue_rejectP ..) (trace_rejectP ..))
      | ok args =>
          show Resolves w (match (finishMap r stack w fvals).2 with
            | .error e => rejectP (finishMap r stack w fvals).1 q e
            | .ok args =>
                let ow := allocObj (finishMap r stack w fvals).1 i.cid args
                settleWith ow.2 q (.obj ow.1))
          rw [hx]
          exact resolvesTrans (resolves_finishMap r stack fvals w)
            (resolvesTrans (resolves_of_fields rfl rfl rfl)
              (resolves_of_fields (regs_settleWith ..) (queue_settleWith ..)
                (trace_settleWith ..)))

theorem NN_schedStep {w w' : World} (h : schedStep w = some w') (r : RegId)
    (b : Binding) (hmem : memoOf w r b ≠ none) (hjobs : jobsFor w r b = 0) :
    memoOf w' r b ≠ none ∧ jobsFor w' r b = 0 ∧
      producerRuns w' r b = producerRuns w r b := by
  unfold schedStep at h
  cases hfr : findRunnable w w.queue with
  | none => rw [hfr] at h; exact absurd h (by simp)
  | some pr =>
      obtain ⟨j, rest⟩ := pr
      rw [hfr] at h
      injection h with h'
      subst h'
      obtain ⟨l₁, l₂, hq, hrest⟩ := findRunnable_spec w w.queue j rest hfr
      subst hrest
      have hsplit := jobsFor_removeMid w l₁ l₂ j r b hq
      have hjrun : isRunFor r b j = false := by
        by_cases hb : isRunFor r b j
        · rw [hb] at hsplit; simp at hsplit; omega
        · exact Bool.not_eq_true _ ▸ (by simp [hb])
      rw [hjrun] at hsplit
      simp at hsplit
      have hjm : jobsFor { w with queue := l₁ ++ l₂ } r b = 0 := by omega
      have hmm : memoOf { w with queue := l₁ ++ l₂ } r b ≠ none := by
        rw [memoOf_congr rfl]; exact hmem
      have hrm : producerRuns { w with queue := l₁ ++ l₂ } r b = producerRuns w r b :=
        producerRuns_congr rfl r b
      set wm := { w with queue := l₁ ++ l₂ } with hwm
      cases j with
      | runFactory r₀ b₀ stack prod q₀ =>
          have hpairne : ¬(r₀ = r ∧ b₀ = b) := by
            intro hpr
            obtain ⟨h1, h2⟩ := hpr
            subst h1; subst h2
            rw [isRunFor_self] at hjrun
            exact Bool.noConfusion hjrun
          have htr : memoOf (addTrace wm r₀ b₀) r b ≠ none := by
            rw [memoOf_congr rfl]; exact hmm
          have htrj : jobsFor (addTrace wm r₀ b₀) r b = 0 := by
            rw [jobsFor_congr rfl]; exact hjm
          have htrr : producerRuns (addTrace wm r₀ b₀) r b = producerRuns w r b := by
            rw [producerRuns_addTrace, if_neg hpairne]
            simpa using hrm
          rw [execJob_runFactory_eq]
          cases prod with
          | ofFactory f =>
              have hres := resolves_runFCode (addTrace wm r₀ b₀) r₀ stack f
              obtain ⟨hm2, hj2, hr2⟩ := NN_of_resolves hres r b htr
              refine ⟨?_, ?_, ?_⟩
              · rw [memoOf_congr (regs_settleWith ..)]; exact hm2
              · rw [jobsFor_congr (queue_settleWith ..), hj2, htrj]
              · rw [producerRuns_congr (trace_settleWith ..), hr2, htrr]
          | ofInjectable i =>
              have hres := resolves_injectStart (addTrace wm r₀ b₀) r₀ i stack
              obtain ⟨hm2, hj2, hr2⟩ := NN_of_resolves hres r b htr
              refine ⟨?_, ?_, ?_⟩
              · rw [memoOf_congr (regs_settleWith ..)]; exact hm2
              · rw [jobsFor_congr (queue_settleWith ..), hj2, htrj]
              · rw [producerRuns_congr (trace_settleWith ..), hr2, htrr]
      | injectAll r₀ i stack poss q₀ =>
          obtain ⟨h1, h2, h3⟩ :=
            NN_of_resolves (resolves_execJob_injectAll wm r₀ i stack poss q₀) r b hmm
          exact ⟨h1, h2.trans hjm, h3.trans hrm⟩

theorem NN_step {w w' : World} (h : StepR w w') (r : RegId) (b : Binding)
    (hmem : memoOf w r b ≠ none) (hjobs : jobsFor w r b = 0) :
    memoOf w' r b ≠ none ∧ jobsFor w' r b = 0 ∧
      producerRuns w' r b = producerRuns w r b := by
  cases h with
  | newInj =>
      obtain ⟨h1, h2, h3⟩ := NN_of_resolves (resolves_newInjector w) r b hmem
      exact ⟨h1, h2.trans hjobs, h3⟩
  | child r' =>
      obtain ⟨h1, h2, h3⟩ := NN_of_resolves (resolves_childOf w r') r b hmem
      exact ⟨h1, h2.trans hjobs, h3⟩
  | bindOp r' b' i =>
      refine ⟨?_, ?_, ?_⟩
      · rw [show memoOf (Injector.bind w r' b' i) r b = memoOf w r b from
          memoOf_setFactory w r' r b' b _]
        exact hmem
      · show jobsFor (setFactory w r' b' (.ofInjectable i)) r b = 0
        rw [jobsFor_congr (queue_setFactory ..), hjobs]
      · exact producerRuns_congr (trace_setFactory ..) r b
  | createOp r' b' f =>
      refine ⟨?_, ?_, ?_⟩
      · rw [show memoOf (Injector.create w r' b' f) r b = memoOf w r b from
          memoOf_setFactory w r' r b' b _]
        exact hmem
      · show jobsFor (setFactory w r' b' (.ofFactory f)) r b = 0
        rw [jobsFor_congr (queue_setFactory ..), hjobs]
      · exact producerRuns_congr (trace_setFactory ..) r b
  | useOp r' b' v =>
      refine ⟨?_, ?_, ?_⟩
      · by_cases hpair : r = r' ∧ b = b'
        · obtain ⟨h1, h2⟩ := hpair
          subst h1; subst h2
          have hreg : ∃ reg, regAt w r = some reg := by
            cases hr : regAt w r with
            | none => exact absurd (by unfold memoOf; rw [hr]) hmem
            | some reg => exact ⟨reg, rfl⟩
          obtain ⟨reg, hreg⟩ := hreg
          exact memoOf_use_self w r b v reg hreg
        · rw [not_and_or] at hpair
          rw [memoOf_use w r' r b' b v hpair]
          exact hmem
      · rw [jobsFor_congr (queue_use ..), hjobs]
      · exact producerRuns_congr (trace_use ..) r b
  | getOp r' b' =>
      obtain ⟨h1, h2, h3⟩ := NN_of_resolves (resolves_getF w r' b' []) r b hmem
      exact ⟨h1, h2.trans hjobs, h3⟩
  | injectOp r' i =>
      obtain ⟨h1, h2, h3⟩ := NN_of_resolves (resolves_injectStart w r' i []) r b hmem
      exact ⟨h1, h2.trans hjobs, h3⟩
  | makeOp r' f =>
      obtain ⟨h1, h2, h3⟩ := NN_of_resolves (resolves_make w r' f) r b hmem
      exact ⟨h1, h2.trans hjobs, h3⟩
  | sched w2 hs => exact NN_schedStep hs r b hmem hjobs

theorem NN_evolves {w w' : World} (h : Evolves w w') (r : RegId) (b : Binding)
    (hmem : memoOf w r b ≠ none) (hjobs : jobsFor w r b = 0) :
    memoOf w' r b ≠ none ∧ jobsFor w' r b = 0 ∧
      producerRuns w' r b = producerRuns w r b := by
  induction h with
  | refl => exact ⟨hmem, hjobs, rfl⟩
  | tail hsteps hstep ih =>
      obtain ⟨h1, h2, h3⟩ := ih
      obtain ⟨g1, g2, g3⟩ := NN_step hstep r b h1 h2
      exact ⟨g1, g2, g3.trans h3⟩

/- ### Observers used by the claims -/

/-- Does the second list occur at the head of the first? -/
def startsWithL : List Char → List Char → Bool
  | _, [] => true
  | [], _ :: _ => false
  | c :: cs, p :: ps => c = p && startsWithL cs ps

/-- Does the second list occur anywhere inside the first? -/
def occursInL : List Char → List Char → Bool
  | [], pat => pat.isEmpty
  | c :: cs, pat => startsWithL (c :: cs) pat || occursInL cs pat

/-- Substring test: `pat` occurs somewhere in `s`. -/
def strContains (s pat : String) : Bool := occursInL s.data pat.data

/-- `key` has no producer and no memo entry locally or in any ancestor of
`r` (checked along the whole parent chain, with enough fuel). -/
def noBindingUpto (w : World) (b : Binding) : Nat → RegId → Bool
  | 0, _ => false
  | fuel + 1, r =>
      (memoOf w r b).isNone && (factoryOf w r b).isNone &&
        (match parentOf w r with
         | none => true
         | some p => noBindingUpto w b fuel p)

theorem getAux_unresolvedChain (w : World) (b : Binding) :
    ∀ fuel r, noBindingUpto w b fuel r = true →
      getAux fuel w r b [] =
        mkRejected w ("Unable to resolve binding " ++ bindingName b) := by
  intro fuel
  induction fuel with
  | zero => intro r h; exact absurd h (by simp [noBindingUpto])
  | succ n ih =>
      intro r h
      unfold noBindingUpto at h
      rw [Bool.and_eq_true, Bool.and_eq_true] at h
      obtain ⟨⟨hm, hf⟩, hpar⟩ := h
      rw [Option.isNone_iff_eq_none] at hm hf
      cases hp : parentOf w r with
      | none => exact getAux_unresolved n w r b [] rfl hm hf hp
      | some p =>
          rw [getAux_miss_parent n w r p b [] rfl hm hf hp]
          rw [hp] at hpar
          exact ih p hpar

theorem getF_memoHit (w : World) (r : RegId) (b : Binding) (pid : PromiseId)
    (hm : memoOf w r b = some pid) : getF w r b [] = (pid, w) := by
  have hlt : r < w.regs.length := by
    by_contra hge
    rw [show memoOf w r b = none by
      unfold memoOf
      rw [regAt_ge_none w r (Nat.le_of_not_lt hge)]] at hm
    exact Option.noConfusion hm
  unfold getF
  cases hlen : w.regs.length with
  | zero =>
      rw [hlen] at hlt
      exact absurd hlt (Nat.not_lt_zero r)
  | succ n => exact getAux_memoHit n w r b [] rfl pid hm

/- ### Concrete scenario worlds -/

/-- A fresh root registry. -/
def w0p : RegId × World := Injector.newInjector World.empty

/-- Root registry id (0). -/
def rootR : RegId := w0p.1

/-- Scenario for cycle detection with a string key: the factory for
`"foo"` calls `get("foo")` on itself. -/
def cycFooW : World :=
  Injector.create w0p.2 rootR (.str "foo") (.retGet (.str "foo"))

def cycFooGet : PromiseId × World := Injector.get cycFooW rootR (.str "foo")

def cycFooFinal : World := runSched 5 cycFooGet.2

/-- Scenario for cycle detection with a class key. -/
def fooCls : Binding := .cls 7 "Foo"

def cycClsW : World := Injector.create w0p.2 rootR fooCls (.retGet fooCls)

def cycClsGet : PromiseId × World := Injector.get cycClsW rootR fooCls

def cycClsFinal : World := runSched 5 cycClsGet.2

/-- C2: cycle detection.  On the registry that detects a key already in the
in-flight stack: with no parent, `#get` rejects with a cycle error built
from the key's display name; with a parent, resolution is delegated to the
parent with a fresh empty stack (no cycle error in the child).
Concretely, a factory for `"foo"` calling `get("foo")` on itself rejects
with an error whose message names `"foo"`, and a class-keyed factory doing
the same rejects naming `[class Foo]`. -/
theorem claim2_cycleDetection :
    (∀ fuel w r b stack, stack.contains b = true → parentOf w r = none →
      getAux (fuel + 1) w r b stack =
        mkRejected w ("Recursion detected injecting " ++ bindingName b)) ∧
    (∀ fuel w r p b stack, stack.contains b = true → parentOf w r = some p →
      getAux (fuel + 1) w r b stack = getAux fuel w p b []) ∧
    (finalP cycFooFinal cycFooGet.1 =
        some (false, .err "Recursion detected injecting \"foo\"") ∧
      strContains "Recursion detected injecting \"foo\"" "\"foo\"" = true) ∧
    (finalP cycClsFinal cycClsGet.1 =
        some (false, .err "Recursion detected injecting [class Foo]") ∧
      strContains "Recursion detected injecting [class Foo]" "[class Foo]" = true) := by
  refine ⟨?_, ?_, ?_, ?_⟩
  · intro fuel w r b stack hs hp
    exact getAux_cycle_root fuel w r b stack hs hp
  · intro fuel w r p b stack hs hp
    exact getAux_cycle_parent fuel w r p b stack hs hp
  · exact ⟨by decide, by decide⟩
  · exact ⟨by decide, by decide⟩

/-- Witness for C2 at concrete inputs. -/
theorem claim2_cycleDetection_witness :
    getAux 4 cycFooW rootR (.str "foo") [.str "foo"] =
      mkRejected cycFooW ("Recursion detected injecting " ++ bindingName (.str "foo")) ∧
    getAux 4 { cycFooW with regs := cycFooW.regs ++ [⟨[], [], some rootR⟩] }
        (cycFooW.regs.length) (.str "foo") [.str "foo"] =
      getAux 3 { cycFooW with regs := cycFooW.regs ++ [⟨[], [], some rootR⟩] }
        rootR (.str "foo") [] :=
  ⟨claim2_cycleDetection.1 3 cycFooW rootR (.str "foo") [.str "foo"] (by decide)
      (by decide),
   claim2_cycleDetection.2.1 3 _ _ rootR (.str "foo") [.str "foo"] (by decide)
      (by decide)⟩

/-- Scenario for unresolved bindings: a root and a child, neither binding
the requested keys. -/
def unresParent : RegId × World := Injector.newInjector World.empty

def unresChild : RegId × World := Injector.injector unresParent.2 unresParent.1

def unresGetStr : PromiseId × World := Injector.get unresChild.2 unresChild.1 (.str "zap")

def unresGetCls : PromiseId × World := Injector.get unresChild.2 unresChild.1 (.cls 9 "Gone")

/-- C3: unresolved bindings.  For a key with no producer and no memo entry
locally or in any ancestor, `get` rejects with an unresolved-binding error
whose message contains the key's display form: `[class Name]` for a class
key, the name in double quotes for a string key. -/
theorem claim3_unresolvedBinding :
    (∀ w r b, noBindingUpto w b w.regs.length r = true →
      Injector.get w r b =
        mkRejected w ("Unable to resolve binding " ++ bindingName b) ∧
      (mkRejected w ("Unable to resolve binding " ++ bindingName b)).2.promises[
          (mkRejected w ("Unable to resolve binding " ++ bindingName b)).1]? =
        some (.rejected (.err ("Unable to resolve binding " ++ bindingName b)))) ∧
    (∀ c n, bindingName (.cls c n) = "[class " ++ n ++ "]") ∧
    (∀ s, bindingName (.str s) = "\x22" ++ s ++ "\x22") ∧
    (finalP unresGetStr.2 unresGetStr.1 =
        some (false, .err "Unable to resolve binding \"zap\"") ∧
      strContains "Unable to resolve binding \"zap\"" "\"zap\"" = true) ∧
    (finalP unresGetCls.2 unresGetCls.1 =
        some (false, .err "Unable to resolve binding [class Gone]") ∧
      strContains "Unable to resolve binding [class Gone]" "[class Gone]" = true) := by
  refine ⟨?_, fun c n => rfl, fun s => rfl, ⟨by decide, by decide⟩, ⟨by decide, by decide⟩⟩
  intro w r b h
  constructor
  · exact getAux_unresolvedChain w b w.regs.length r h
  · rw [promises_mkRejected, fst_mkRejected]
    exact List.getElem?_concat_length ..

/-- Witness for C3 at a concrete input. -/
theorem claim3_unresolvedBinding_witness :
    Injector.get unresChild.2 unresChild.1 (.str "zap") =
      mkRejected unresChild.2
        ("Unable to resolve binding " ++ bindingName (.str "zap")) :=
  (claim3_unresolvedBinding.1 unresChild.2 unresChild.1 (.str "zap") (by decide)).1

/-- Scenario for the `in`-operator `TypeError`: `"x"` is `use`-bound to the
primitive string `"hello"`, and an injectable declares a plain dependency
on `"x"`. -/
def primU : Injectable := ⟨2, "U", some [.plain (.str "x")]⟩

def primW : World := Injector.use w0p.2 rootR (.str "x") (.vstr "hello")

def primInject : PromiseId × World := Injector.inject primW rootR primU

def primFinal : World := runSched 5 primInject.2

/-- C6: for an inject call with a non-deferred dependency whose resolved
value is a primitive (here the string `"hello"` registered via `use`), the
promise returned by `inject` rejects with the `TypeError` thrown by the
`promisedBinding in i` membership test, and the target constructor is
never invoked (no object of the target class is ever constructed). -/
theorem claim6_inOperatorTypeError :
    finalP primFinal primInject.1 =
      some (false,
        .err ("TypeError: Cannot use 'in' operator to search for 'Symbol(siringa.promisedBinding)' in " ++ "primitive")) ∧
    primFinal.objs = [] := by
  constructor
  · decide
  · decide

/- ### Fuel irrelevance of the resolver (well-formed parent chains) -/

/-- Parent pointers strictly decrease (children are always created after
their parents), checked over the registry heap. -/
def parentsDecreasing (w : World) : Bool :=
  (List.range w.regs.length).all (fun r =>
    match parentOf w r with
    | some p => decide (p < r)
    | none => true)

theorem parentsDecreasing_spec (w : World) (h : parentsDecreasing w = true) :
    ∀ r p, parentOf w r = some p → p < r := by
  intro r p hp
  by_cases hr : r < w.regs.length
  · have hall := List.all_eq_true.mp h r (List.mem_range.mpr hr)
    rw [hp] at hall
    exact of_decide_eq_true hall
  · rw [show parentOf w r = none by
      unfold parentOf
      rw [regAt_ge_none w r (Nat.le_of_not_lt hr)]] at hp
    exact Option.noConfusion hp

theorem getAux_fuelIrrel (w : World) (hwf : ∀ r p, parentOf w r = some p → p < r) :
    ∀ fuel fuel' r b stack, r < fuel → r < fuel' →
      getAux fuel w r b stack = getAux fuel' w r b stack := by
  intro fuel
  induction fuel with
  | zero =>
      intro fuel' r b stack h _
      exact absurd h (Nat.not_lt_zero r)
  | succ n ih =>
      intro fuel' r b stack h h'
      cases fuel' with
      | zero => exact absurd h' (Nat.not_lt_zero r)
      | succ m =>
          by_cases hs : stack.contains b
          · cases hp : parentOf w r with
            | none =>
                rw [getAux_cycle_root n w r b stack hs hp,
                  getAux_cycle_root m w r b stack hs hp]
            | some p =>
                rw [getAux_cycle_parent n w r p b stack hs hp,
                  getAux_cycle_parent m w r p b stack hs hp]
                have hpr := hwf r p hp
                exact ih m p b [] (Nat.lt_of_lt_of_le hpr (Nat.lt_succ_iff.mp h))
                  (Nat.lt_of_lt_of_le hpr (Nat.lt_succ_iff.mp h'))
          · rw [Bool.not_eq_true] at hs
            cases hm : memoOf w r b with
            | some pid =>
                rw [getAux_memoHit n w r b stack hs pid hm,
                  getAux_memoHit m w r b stack hs pid hm]
            | none =>
                cases hf : factoryOf w r b with
                | some prod =>
                    rw [getAux_factory n w r b stack hs hm prod hf,
                      getAux_factory m w r b stack hs hm prod hf]
                | none =>
                    cases hp : parentOf w r with
                    | none =>
                        rw [getAux_unresolved n w r b stack hs hm hf hp,
                          getAux_unresolved m w r b stack hs hm hf hp]
                    | some p =>
                        rw [getAux_miss_parent n w r p b stack hs hm hf hp,
                          getAux_miss_parent m w r p b stack hs hm hf hp]
                        have hpr := hwf r p hp
                        exact ih m p b [] (Nat.lt_of_lt_of_le hpr (Nat.lt_succ_iff.mp h))
                          (Nat.lt_of_lt_of_le hpr (Nat.lt_succ_iff.mp h'))

theorem regAt_lt_of_ne_none (w : World) (r : RegId) (h : regAt w r ≠ none) :
    r < w.regs.length := by
  by_contra hge
  exact h (regAt_ge_none w r (Nat.le_of_not_lt hge))

theorem lt_of_factoryOf_some (w : World) (r : RegId) (b : Binding) (prod : Producer)
    (h : factoryOf w r b = some prod) : r < w.regs.length := by
  apply regAt_lt_of_ne_none
  intro hr
  unfold factoryOf at h
  rw [hr] at h
  exact Option.noConfusion h

/-- The first `get` on a locally factory-bound, unmemoized key: the memo
entry is written and the producer run queued, all before any asynchronous
work happens. -/
theorem getF_factory (w : World) (r : RegId) (b : Binding) (prod : Producer)
    (hm : memoOf w r b = none) (hf : factoryOf w r b = some prod) :
    Injector.get w r b =
      (w.promises.length,
       enqueue (setMemo (freshP w .pending).2 r b w.promises.length)
         (.runFactory r b [b] prod w.promises.length)) := by
  have hlt : r < w.regs.length := lt_of_factoryOf_some w r b prod hf
  unfold Injector.get getF
  cases hlen : w.regs.length with
  | zero =>
      rw [hlen] at hlt
      exact absurd hlt (Nat.not_lt_zero r)
  | succ n =>
      have := getAux_factory n w r b [] rfl hm prod hf
      simpa using this

/- ### C4 scenario worlds -/

/-- A parent with a factory for `"x"` and no memo entry, and a fresh child. -/
def delegW : World := Injector.create w0p.2 rootR (.str "x") (.ret (.vstr "A"))

def delegChild : RegId × World := Injector.injector delegW rootR

def delegGet : PromiseId × World :=
  Injector.get delegChild.2 delegChild.1 (.str "x")

/-- C4 counterexample: the claim that a child's resolutions never mutate
the parent's memo cache is false.  With the parent binding `"x"` and the
child unbound, `child.get("x")` delegates to the parent and writes the
in-flight promise into the **parent's** memo cache: the parent's memo
entry for `"x"` changes from `none` to an entry. -/
theorem claim4_counterexample :
    memoOf delegChild.2 rootR (.str "x") = none ∧
    memoOf delegGet.2 rootR (.str "x") = some 0 := by
  constructor
  · decide
  · decide

/-- Parent/child shadowing scenario: parent `"x" → "A"`, child `"x" → "B"`. -/
def shadowParentW : World :=
  Injector.create w0p.2 rootR (.str "x") (.ret (.vstr "A"))

def shadowChild : RegId × World := Injector.injector shadowParentW rootR

def shadowChildW : World :=
  Injector.create shadowChild.2 shadowChild.1 (.str "x") (.ret (.vstr "B"))

def shadowGetC : PromiseId × World :=
  Injector.get shadowChildW shadowChild.1 (.str "x")

def shadowGetP : PromiseId × World := Injector.get shadowGetC.2 rootR (.str "x")

def shadowFinal : World := runSched 6 shadowGetP.2

/-- C4 amended: a child registry starts with empty bindings and memo and a
parent pointer; the child's **registrations** never mutate any other
registry; a child resolution served from the child's own memo leaves the
whole world unchanged, and one served by a child-local producer leaves
every other registry's row (bindings, memo, parent) unchanged; a
resolution the child cannot serve at all is **delegated**: it equals the
parent's own `get`, so it populates the parent's memo exactly as a direct
parent call would.  With `"x"` bound in both, `child.get("x")` yields the
child's value and `parent.get("x")` the parent's, the parent's row being
unchanged by the child's registration. -/
theorem claim4_childShadowing :
    (∀ w r, Injector.injector w r =
      (w.regs.length, { w with regs := w.regs ++ [⟨[], [], some r⟩] })) ∧
    (∀ w c b i r', r' ≠ c → regAt (Injector.bind w c b i) r' = regAt w r') ∧
    (∀ w c b f r', r' ≠ c → regAt (Injector.create w c b f) r' = regAt w r') ∧
    (∀ w c b v r', r' ≠ c → regAt (Injector.use w c b v) r' = regAt w r') ∧
    (∀ w c b pid, memoOf w c b = some pid → (Injector.get w c b).2 = w) ∧
    (∀ w c b prod r', r' ≠ c → memoOf w c b = none → factoryOf w c b = some prod →
      regAt (Injector.get w c b).2 r' = regAt w r') ∧
    (∀ w c p b, parentsDecreasing w = true → c < w.regs.length →
      memoOf w c b = none → factoryOf w c b = none → parentOf w c = some p →
      Injector.get w c b = Injector.get w p b) ∧
    (finalP shadowFinal shadowGetC.1 = some (true, .vstr "B") ∧
     finalP shadowFinal shadowGetP.1 = some (true, .vstr "A") ∧
     regAt shadowChildW rootR = regAt shadowParentW rootR) := by
  refine ⟨fun w r => rfl, ?_, ?_, ?_, ?_, ?_, ?_, by decide, by decide, by decide⟩
  · intro w c b i r' h
    exact regAt_modifyReg_ne w c r' _ h
  · intro w c b f r' h
    exact regAt_modifyReg_ne w c r' _ h
  · intro w c b v r' h
    unfold Injector.use
    cases v with
    | promiseV q => exact regAt_modifyReg_ne w c r' _ h
    | _ =>
        first
        | (show regAt (setMemo (freshP w _).2 c b _) r' = regAt w r'
           unfold setMemo
           rw [regAt_modifyReg_ne _ c r' _ h]
           exact regAt_congr rfl r')
  · intro w c b pid hm
    show (getF w c b []).2 = w
    rw [getF_memoHit w c b pid hm]
  · intro w c b prod r' h hm hf
    rw [getF_factory w c b prod hm hf]
    show regAt (enqueue (setMemo (freshP w .pending).2 c b w.promises.length) _) r' = _
    rw [regAt_congr (regs_enqueue ..) r']
    unfold setMemo
    rw [regAt_modifyReg_ne _ c r' _ h]
    exact regAt_congr rfl r'
  · intro w c p b hwf hlt hm hf hp
    have hdec := parentsDecreasing_spec w hwf
    have hplt : p < c := hdec c p hp
    unfold Injector.get getF
    cases hlen : w.regs.length with
    | zero =>
        rw [hlen] at hlt
        exact absurd hlt (Nat.not_lt_zero c)
    | succ n =>
        rw [hlen] at hlt
        rw [getAux_miss_parent n w c p b [] rfl hm hf hp]
        exact getAux_fuelIrrel w hdec n (n + 1) p b []
          (Nat.lt_of_lt_of_le hplt (Nat.lt_succ_iff.mp hlt))
          (Nat.lt_trans hplt hlt)

/-- Witness for C4's amended theorem at concrete inputs. -/
theorem claim4_childShadowing_witness :
    regAt (Injector.bind shadowChildW shadowChild.1 (.str "y") ⟨3, "Y", none⟩) rootR =
      regAt shadowChildW rootR ∧
    Injector.get delegChild.2 delegChild.1 (.str "x") =
      Injector.get delegChild.2 rootR (.str "x") :=
  ⟨claim4_childShadowing.2.1 shadowChildW shadowChild.1 (.str "y") ⟨3, "Y", none⟩
      rootR (by decide),
   claim4_childShadowing.2.2.2.2.2.2.1 delegChild.2 delegChild.1 rootR (.str "x")
      (by decide) (by decide) (by decide) (by decide) (by decide)⟩

/- ### Helpers for the registration claims -/

theorem regAt_of_memo_some (w : World) (r : RegId) (b : Binding) (pid : PromiseId)
    (h : memoOf w r b = some pid) : ∃ reg, regAt w r = some reg := by
  unfold memoOf at h
  cases hr : regAt w r with
  | none => rw [hr] at h; exact Option.noConfusion h
  | some reg => exact ⟨reg, rfl⟩

theorem factoryOf_use (w : World) (r r' : RegId) (b b' : Binding) (v : Value) :
    factoryOf (Injector.use w r b v) r' b' = factoryOf w r' b' := by
  unfold Injector.use
  cases v with
  | promiseV q => exact factoryOf_setMemo w r r' b b' q
  | _ =>
      first
      | (show factoryOf (setMemo (freshP w _).2 r b _) r' b' = _
         rw [factoryOf_setMemo]
         exact factoryOf_congr rfl r' b')

theorem use_eq_nonPromise (w : World) (r : RegId) (b : Binding) (v : Value)
    (h : ∀ q, v ≠ .promiseV q) :
    Injector.use w r b v = setMemo (freshP w (.fulfilled v)).2 r b w.promises.length := by
  unfold Injector.use
  cases v with
  | promiseV q => exact absurd rfl (h q)
  | _ => rfl

/-- A small reachable world: a root registry with `"x"` bound to a factory. -/
def c1W1 : World := (Injector.newInjector World.empty).2

def c1W : World := Injector.create c1W1 0 (.str "x") (.ret .undef)

theorem c1W_reachable : Reachable c1W :=
  Relation.ReflTransGen.tail
    (Relation.ReflTransGen.tail Relation.ReflTransGen.refl (StepR.newInj World.empty))
    (StepR.createOp c1W1 0 (.str "x") (.ret .undef))

/-- A world with `"y"` `use`-bound (memoized, no producer). -/
def c1U : World := Injector.use c1W1 0 (.str "y") (.vnum 5)

/-- C1: memoized resolution.  (1) In every reachable world the producer of
any key on any registry has run at most once.  (2) A `get` on a memoized
key returns exactly the memoized promise and leaves the world unchanged,
so every caller holds the same promise and observes the same settlement
(the same fulfilment value, or the same rejection replayed).  (3) The
first `get` on a factory-bound key stores the (still pending) promise in
the memo cache and merely queues the producer run — the producer has not
run yet when `get` returns, so concurrent resolvers racing for the key
observe the in-flight promise. -/
theorem claim1_memoizedResolution :
    (∀ w r b, Reachable w → producerRuns w r b ≤ 1) ∧
    (∀ w r b pid, memoOf w r b = some pid →
      Injector.get w r b = (pid, w) ∧
      finalP (Injector.get w r b).2 (Injector.get w r b).1 = finalP w pid) ∧
    (∀ w r b prod, memoOf w r b = none → factoryOf w r b = some prod →
      (Injector.get w r b).1 = w.promises.length ∧
      memoOf (Injector.get w r b).2 r b = some w.promises.length ∧
      (Injector.get w r b).2.promises[w.promises.length]? = some .pending ∧
      producerRuns (Injector.get w r b).2 r b = producerRuns w r b ∧
      (Injector.get w r b).2.queue =
        w.queue ++ [.runFactory r b [b] prod w.promises.length]) := by
  refine ⟨?_, ?_, ?_⟩
  · intro w r b h
    have := (INV_reachable h r b).2
    omega
  · intro w r b pid hm
    have heq : Injector.get w r b = (pid, w) := by
      show getF w r b [] = (pid, w)
      exact getF_memoHit w r b pid hm
    refine ⟨heq, ?_⟩
    rw [heq]
  · intro w r b prod hm hf
    have heq := getF_factory w r b prod hm hf
    obtain ⟨reg, hreg⟩ : ∃ reg, regAt w r = some reg := by
      unfold factoryOf at hf
      cases hr : regAt w r with
      | none => rw [hr] at hf; exact Option.noConfusion hf
      | some reg => exact ⟨reg, rfl⟩
    rw [heq]
    refine ⟨rfl, ?_, ?_, ?_, ?_⟩
    · rw [memoOf_congr (regs_enqueue ..) r b]
      exact memoOf_setMemo_self (freshP w .pending).2 r b w.promises.length reg
        (by rw [regAt_congr (regs_freshP ..) r]; exact hreg)
    · rw [promises_enqueue, promises_setMemo, promises_freshP]
      exact List.getElem?_concat_length ..
    · rw [producerRuns_congr (trace_enqueue ..) r b,
        producerRuns_congr (trace_setMemo ..) r b,
        producerRuns_congr (trace_freshP ..) r b]
    · rw [queue_enqueue, queue_setMemo, queue_freshP]

/-- Witness for C1 at concrete inputs. -/
theorem claim1_memoizedResolution_witness :
    producerRuns c1W 0 (.str "x") ≤ 1 ∧
    Injector.get c1U 0 (.str "y") = (0, c1U) ∧
    memoOf (Injector.get c1W 0 (.str "x")).2 0 (.str "x") =
      some c1W.promises.length :=
  ⟨claim1_memoizedResolution.1 c1W 0 (.str "x") c1W_reachable,
   (claim1_memoizedResolution.2.1 c1U 0 (.str "y") 0 (by decide)).1,
   (claim1_memoizedResolution.2.2 c1W 0 (.str "x") (.ofFactory (.ret .undef))
      (by decide) (by decide)).2.1⟩

/-- C7: rebinding after resolution is stale.  If a key is memoized (its
producer run, if any, is no longer queued), a subsequent `bind` or
`create` for the same key overwrites the producer map but does not touch
the memo cache: `get` still returns the previously cached promise and
leaves the world unchanged, and along **every** possible future of the
system the producer-run count for that key never changes — the newly
registered producer is never invoked. -/
theorem claim7_rebindDoesNotInvalidate :
    ∀ w r b pid, memoOf w r b = some pid → jobsFor w r b = 0 →
      (∀ i', memoOf (Injector.bind w r b i') r b = some pid ∧
        factoryOf (Injector.bind w r b i') r b = some (.ofInjectable i') ∧
        Injector.get (Injector.bind w r b i') r b = (pid, Injector.bind w r b i') ∧
        (∀ w', Evolves (Injector.bind w r b i') w' →
          producerRuns w' r b = producerRuns w r b)) ∧
      (∀ f', memoOf (Injector.create w r b f') r b = some pid ∧
        factoryOf (Injector.create w r b f') r b = some (.ofFactory f') ∧
        Injector.get (Injector.create w r b f') r b = (pid, Injector.create w r b f') ∧
        (∀ w', Evolves (Injector.create w r b f') w' →
          producerRuns w' r b = producerRuns w r b)) := by
  intro w r b pid hm hj
  obtain ⟨reg, hreg⟩ := regAt_of_memo_some w r b pid hm
  have key : ∀ P : Producer,
      memoOf (setFactory w r b P) r b = some pid ∧
      factoryOf (setFactory w r b P) r b = some P ∧
      Injector.get (setFactory w r b P) r b = (pid, setFactory w r b P) ∧
      (∀ w', Evolves (setFactory w r b P) w' →
        producerRuns w' r b = producerRuns w r b) := by
    intro P
    have hm' : memoOf (setFactory w r b P) r b = some pid := by
      rw [memoOf_setFactory]; exact hm
    refine ⟨hm', factoryOf_setFactory_self w r b P reg hreg, ?_, ?_⟩
    · show getF (setFactory w r b P) r b [] = _
      exact getF_memoHit _ r b pid hm'
    · intro w' hev
      have hj' : jobsFor (setFactory w r b P) r b = 0 := by
        rw [jobsFor_congr (queue_setFactory ..) r b]; exact hj
      have hmne : memoOf (setFactory w r b P) r b ≠ none := by
        rw [hm']; exact Option.noConfusion
      obtain ⟨_, _, hruns⟩ := NN_evolves hev r b hmne hj'
      rw [hruns]
      exact producerRuns_congr (trace_setFactory ..) r b
  exact ⟨fun i' => key (.ofInjectable i'), fun f' => key (.ofFactory f')⟩

/-- Witness for C7 at concrete inputs. -/
theorem claim7_rebindDoesNotInvalidate_witness :
    memoOf (Injector.bind c1U 0 (.str "y") ⟨5, "New", none⟩) 0 (.str "y") = some 0 ∧
    Injector.get (Injector.bind c1U 0 (.str "y") ⟨5, "New", none⟩) 0 (.str "y") =
      (0, Injector.bind c1U 0 (.str "y") ⟨5, "New", none⟩) ∧
    producerRuns (Injector.bind c1U 0 (.str "y") ⟨5, "New", none⟩) 0 (.str "y") =
      producerRuns c1U 0 (.str "y") := by
  have h := (claim7_rebindDoesNotInvalidate c1U 0 (.str "y") 0 (by decide) (by decide)).1
    ⟨5, "New", none⟩
  exact ⟨h.1, h.2.2.1, h.2.2.2 _ Relation.ReflTransGen.refl⟩

/-- C8: `use` pre-resolves.  `use(key, v)` stores no producer (every
registry's `#factories` map is untouched); it writes a normalized promise
straight into the memo cache — `v` itself when `v` is already a promise
(pending or rejected included, so its settlement is replayed), a fresh
promise fulfilled with `v` otherwise — and `get` finds the entry
immediately, returning it with the world unchanged.  If no producer run is
queued for the key, none is ever created afterwards: no producer for the
key is ever invoked in any future of the system. -/
theorem claim8_usePreResolved :
    ∀ w r b v reg, regAt w r = some reg →
      (∀ r' b', factoryOf (Injector.use w r b v) r' b' = factoryOf w r' b') ∧
      (∀ q, v = .promiseV q →
        memoOf (Injector.use w r b v) r b = some q ∧
        Injector.get (Injector.use w r b v) r b = (q, Injector.use w r b v)) ∧
      ((∀ q, v ≠ .promiseV q) →
        memoOf (Injector.use w r b v) r b = some w.promises.length ∧
        (Injector.use w r b v).promises[w.promises.length]? = some (.fulfilled v) ∧
        Injector.get (Injector.use w r b v) r b =
          (w.promises.length, Injector.use w r b v)) ∧
      (jobsFor w r b = 0 →
        ∀ w', Evolves (Injector.use w r b v) w' →
          producerRuns w' r b = producerRuns w r b) := by
  intro w r b v reg hreg
  refine ⟨fun r' b' => factoryOf_use w r r' b b' v, ?_, ?_, ?_⟩
  · intro q hv
    subst hv
    have hm : memoOf (Injector.use w r b (.promiseV q)) r b = some q :=
      memoOf_setMemo_self w r b q reg hreg
    refine ⟨hm, ?_⟩
    show getF (Injector.use w r b (.promiseV q)) r b [] = _
    exact getF_memoHit _ r b q hm
  · intro hv
    rw [use_eq_nonPromise w r b v hv]
    have hm : memoOf (setMemo (freshP w (.fulfilled v)).2 r b w.promises.length) r b =
        some w.promises.length :=
      memoOf_setMemo_self (freshP w (.fulfilled v)).2 r b w.promises.length reg
        (by rw [regAt_congr (regs_freshP ..) r]; exact hreg)
    refine ⟨hm, ?_, ?_⟩
    · rw [promises_setMemo, promises_freshP]
      exact List.getElem?_concat_length ..
    · show getF (setMemo (freshP w (.fulfilled v)).2 r b w.promises.length) r b [] = _
      exact getF_memoHit _ r b w.promises.length hm
  · intro hj w' hev
    have hmne : memoOf (Injector.use w r b v) r b ≠ none :=
      memoOf_use_self w r b v reg hreg
    have hj' : jobsFor (Injector.use w r b v) r b = 0 := by
      rw [jobsFor_congr (queue_use ..) r b]; exact hj
    obtain ⟨_, _, hruns⟩ := NN_evolves hev r b hmne hj'
    rw [hruns]
    exact producerRuns_congr (trace_use ..) r b

/-- Witness for C8 at concrete inputs. -/
theorem claim8_usePreResolved_witness :
    factoryOf (Injector.use c1W1 0 (.str "y") (.vnum 5)) 0 (.str "y") =
      factoryOf c1W1 0 (.str "y") ∧
    memoOf (Injector.use c1W1 0 (.str "y") (.vnum 5)) 0 (.str "y") =
      some c1W1.promises.length ∧
    memoOf (Injector.use c1W1 0 (.str "z") (.promiseV 3)) 0 (.str "z") = some 3 ∧
    producerRuns (Injector.use c1W1 0 (.str "y") (.vnum 5)) 0 (.str "y") =
      producerRuns c1W1 0 (.str "y") := by
  have h1 := claim8_usePreResolved c1W1 0 (.str "y") (.vnum 5) ⟨[], [], none⟩ (by decide)
  have h2 := claim8_usePreResolved c1W1 0 (.str "z") (.promiseV 3) ⟨[], [], none⟩ (by decide)
  exact ⟨h1.1 0 (.str "y"),
    (h1.2.2.1 (fun q => by simp)).1,
    (h2.2.1 3 rfl).1,
    h1.2.2.2 (by decide) _ Relation.ReflTransGen.refl⟩

/- ### C9: injection is not memoized -/

theorem inject_noDeps_eq (w : World) (r : RegId) (i : Injectable)
    (hi : i.inject = none) :
    Injector.inject w r i =
      (w.promises.length,
       { w with objs := w.objs ++ [⟨i.cid, []⟩],
                promises := w.promises ++ [.fulfilled (.obj w.objs.length)] }) := by
  show injectStart w r i [] = _
  unfold injectStart
  rw [hi]
  rfl

theorem inject_noDeps_twice_eq (w : World) (r : RegId) (i : Injectable)
    (hi : i.inject = none) :
    Injector.inject (Injector.inject w r i).2 r i =
      (w.promises.length + 1,
       { w with objs := w.objs ++ [⟨i.cid, []⟩, ⟨i.cid, []⟩],
                promises := w.promises ++
                  [.fulfilled (.obj w.objs.length),
                   .fulfilled (.obj (w.objs.length + 1))] }) := by
  rw [inject_noDeps_eq w r i hi, inject_noDeps_eq _ r i hi]
  simp

/-- Injectable classes for the concrete C9 scenario. -/
def c9d1 : Injectable := ⟨0, "Dep1", none⟩

def c9d2 : Injectable := ⟨1, "Dep2", none⟩

def c9t : Injectable := ⟨2, "T2", some [.plain (classKey c9d1), .plain (classKey c9d2)]⟩

def c9w : World := Injector.bindSelf (Injector.bindSelf w0p.2 rootR c9d1) rootR c9d2

def c9j1 : PromiseId × World := Injector.inject c9w rootR c9t

def c9j2 : PromiseId × World := Injector.inject c9j1.2 rootR c9t

def c9f : World := runSched 8 c9j2.2

/-- C9: `inject` is not memoized.  Every `inject` call constructs a fresh
object: for a dependency-free injectable, two consecutive calls fulfil
their promises with two distinct freshly allocated instances of the class.
Concretely, with `Dep1`/`Dep2` bound and `T2` declaring
`$inject = [Dep1, Dep2]`, two `inject(T2)` calls construct two distinct
`T2` instances whose constructors both received, positionally in declared
order, the **same** memoized `Dep1` and `Dep2` instances, each dependency
producer having run exactly once. -/
theorem claim9_injectNotMemoized :
    (∀ w r i, i.inject = none →
      (Injector.inject (Injector.inject w r i).2 r i).2.objs =
        w.objs ++ [⟨i.cid, []⟩, ⟨i.cid, []⟩] ∧
      (Injector.inject (Injector.inject w r i).2 r i).2.promises[
          (Injector.inject w r i).1]? =
        some (.fulfilled (.obj w.objs.length)) ∧
      (Injector.inject (Injector.inject w r i).2 r i).2.promises[
          (Injector.inject (Injector.inject w r i).2 r i).1]? =
        some (.fulfilled (.obj (w.objs.length + 1))) ∧
      w.objs.length ≠ w.objs.length + 1) ∧
    (c9f.objs = [⟨0, []⟩, ⟨1, []⟩, ⟨2, [.obj 0, .obj 1]⟩, ⟨2, [.obj 0, .obj 1]⟩] ∧
     finalP c9f c9j1.1 = some (true, .obj 2) ∧
     finalP c9f c9j2.1 = some (true, .obj 3) ∧
     c9f.trace = [(rootR, classKey c9d1), (rootR, classKey c9d2)]) := by
  constructor
  · intro w r i hi
    rw [inject_noDeps_twice_eq w r i hi, inject_noDeps_eq w r i hi]
    have hassoc : w.promises ++
        [PromiseState.fulfilled (.obj w.objs.length),
         PromiseState.fulfilled (.obj (w.objs.length + 1))] =
        (w.promises ++ [PromiseState.fulfilled (.obj w.objs.length)]) ++
          [PromiseState.fulfilled (.obj (w.objs.length + 1))] := by simp
    refine ⟨rfl, ?_, ?_, by omega⟩
    · show (w.promises ++ _)[w.promises.length]? = _
      rw [hassoc, List.getElem?_append_left (by simp)]
      exact List.getElem?_concat_length ..
    · show (w.promises ++ _)[w.promises.length + 1]? = _
      rw [hassoc, show w.promises.length + 1 =
        (w.promises ++ [PromiseState.fulfilled (.obj w.objs.length)]).length by simp]
      exact List.getElem?_concat_length ..
  · refine ⟨by decide, by decide, by decide, by decide⟩

/-- Witness for C9 at a concrete input. -/
theorem claim9_injectNotMemoized_witness :
    (Injector.inject (Injector.inject w0p.2 rootR c9d1).2 rootR c9d1).2.objs =
      w0p.2.objs ++ [⟨0, []⟩, ⟨0, []⟩] :=
  (claim9_injectNotMemoized.1 w0p.2 rootR c9d1 rfl).1

/- ### C5: deferred (promised) bindings -/

theorem finishMap_cons_marker2 (r : RegId) (stack : List Binding) (w : World)
    (b : Binding) (rest : List FinVal) :
    finishMap r stack w (.marker b :: rest) =
      ((finishMap r stack (getF w r b stack).2 rest).1,
       match (finishMap r stack (getF w r b stack).2 rest).2 with
       | .ok args => .ok (.promiseV (getF w r b stack).1 :: args)
       | .error e => .error e) := by
  rw [finishMap_cons_marker]
  cases hx : (finishMap r stack (getF w r b stack).2 rest).2 <;> simp [hx]

theorem finishMap_cons_val2 (r : RegId) (stack : List Binding) (w : World)
    (v : Value) (rest : List FinVal) :
    finishMap r stack w (.val v :: rest) =
      (if isObjectLike v then
        if hasPromisedBinding v then
          ((finishMap r stack (getF w r (markerKey v) stack).2 rest).1,
           match (finishMap r stack (getF w r (markerKey v) stack).2 rest).2 with
           | .ok args => .ok (.promiseV (getF w r (markerKey v) stack).1 :: args)
           | .error e => .error e)
        else
          ((finishMap r stack w rest).1,
           match (finishMap r stack w rest).2 with
           | .ok args => .ok (v :: args)
           | .error e => .error e)
      else
        (w, .error (.err ("TypeError: Cannot use 'in' operator to search for 'Symbol(siringa.promisedBinding)' in " ++ "primitive")))) := by
  rw [finishMap_cons_val]
  by_cases ho : isObjectLike v
  · rw [if_pos ho, if_pos ho]
    by_cases hb : hasPromisedBinding v
    · rw [if_pos hb, if_pos hb]
      cases hx : (finishMap r stack (getF w r (markerKey v) stack).2 rest).2 <;> simp [hx]
    · rw [if_neg hb, if_neg hb]
      cases hx : (finishMap r stack w rest).2 <;> simp [hx]
  · rw [if_neg ho, if_neg ho]

/-- General form of the first-`get` equation for any captured stack. -/
theorem getF_factory_stack (w : World) (r : RegId) (b : Binding) (prod : Producer)
    (stack : List Binding) (hs : stack.contains b = false)
    (hm : memoOf w r b = none) (hf : factoryOf w r b = some prod) :
    getF w r b stack =
      (w.promises.length,
       enqueue (setMemo (freshP w .pending).2 r b w.promises.length)
         (.runFactory r b (stack ++ [b]) prod w.promises.length)) := by
  have hlt : r < w.regs.length := lt_of_factoryOf_some w r b prod hf
  unfold getF
  cases hlen : w.regs.length with
  | zero =>
      rw [hlen] at hlt
      exact absurd hlt (Nat.not_lt_zero r)
  | succ n => exact getAux_factory n w r b stack hs hm prod hf

theorem settleWith_nonPromise (w : World) (p : PromiseId) (v : Value)
    (h : ∀ q, v ≠ .promiseV q) :
    settleWith w p v = settleP w p (.fulfilled v) := by
  cases v with
  | promiseV q => exact absurd rfl (h q)
  | _ => rfl

theorem getElemP_settleWith_ne (w : World) (q : PromiseId) (v : Value)
    (p : PromiseId) (h : q ≠ p) :
    (settleWith w q v).promises[p]? = w.promises[p]? := by
  cases v <;>
    (show (settleP w q _).promises[p]? = _
     unfold settleP
     simp [List.getElem?_set_ne h])

/-- C5: deferred handles.  (1) Whenever the post-`await` map of `#inject`
succeeds, every `PromisedBinding` position of the declared dependency list
is passed to the constructor, positionally, as a promise obtained from the
Resolver (`#get`) for the underlying key **on the same registry with the
same captured stack**.  (2) `#inject` on a declaration `[promise k]` queues
the continuation synchronously, and when that continuation runs while `k`
is factory-bound and unmemoized, it: obtains the handle from `#get`
(storing it as `k`'s memo entry, so awaiting the handle yields `k`'s
memoized resolution), invokes the constructor with the handle while the
handle is still **pending** (the producer run for `k` is merely queued,
with the captured stack plus `k`), and records no producer run itself.
(3) Executing that queued producer run later fulfils the very same handle
with the factory's value. -/
theorem claim5_deferredHandles :
    (∀ r stack fvals w w' args,
      finishMap r stack w fvals = (w', Except.ok args) →
      args.length = fvals.length ∧
      ∀ (j : Nat) (b : Binding), fvals[j]? = some (FinVal.marker b) →
        ∃ w₁, args[j]? = some (Value.promiseV (getF w₁ r b stack).1)) ∧
    (∀ w r i k stack, i.inject = some [promise k] →
      injectStart w r i stack =
        (w.promises.length,
         enqueue (freshP w .pending).2
           (.injectAll r i stack [.marker k] w.promises.length))) ∧
    (∀ w r i k stack prod q reg, regAt w r = some reg →
      stack.contains k = false → memoOf w r k = none →
      factoryOf w r k = some prod → q < w.promises.length →
      (execJob w (.injectAll r i stack [.marker k] q)).objs =
        w.objs ++ [⟨i.cid, [.promiseV w.promises.length]⟩] ∧
      (execJob w (.injectAll r i stack [.marker k] q)).promises[
          w.promises.length]? = some .pending ∧
      memoOf (execJob w (.injectAll r i stack [.marker k] q)) r k =
        some w.promises.length ∧
      (execJob w (.injectAll r i stack [.marker k] q)).queue =
        w.queue ++ [.runFactory r k (stack ++ [k]) prod w.promises.length] ∧
      producerRuns (execJob w (.injectAll r i stack [.marker k] q)) r k =
        producerRuns w r k) ∧
    (∀ w r k stack2 v h, (∀ q', v ≠ .promiseV q') → h < w.promises.length →
      (execJob w (.runFactory r k stack2 (.ofFactory (.ret v)) h)).promises[h]? =
        some (.fulfilled v)) := by
  refine ⟨?_, ?_, ?_, ?_⟩
  · intro r stack fvals
    induction fvals with
    | nil =>
        intro w w' args h
        rw [finishMap_nil] at h
        have h2 : Except.ok ([] : List Value) = Except.ok args := congrArg Prod.snd h
        injection h2 with h3
        subst h3
        exact ⟨rfl, fun j b hj => by simp at hj⟩
    | cons fv rest ih =>
        intro w w' args h
        cases fv with
        | marker b =>
            rw [finishMap_cons_marker2] at h
            cases hx : (finishMap r stack (getF w r b stack).2 rest).2 with
            | error e => rw [hx] at h; simp at h
            | ok args' =>
                rw [hx] at h
                have h2 := congrArg Prod.snd h
                simp only [] at h2
                injection h2 with h3
                subst h3
                have hp : finishMap r stack (getF w r b stack).2 rest =
                    ((finishMap r stack (getF w r b stack).2 rest).1, Except.ok args') := by
                  rw [← hx]
                obtain ⟨hlen, hpos⟩ := ih (getF w r b stack).2 _ args' hp
                constructor
                · simp [hlen]
                · intro j b0 hj
                  cases j with
                  | zero =>
                      simp at hj
                      subst hj
                      exact ⟨w, by simp⟩
                  | succ j =>
                      rw [List.getElem?_cons_succ] at hj
                      obtain ⟨w₁, hw⟩ := hpos j b0 hj
                      exact ⟨w₁, by simpa using hw⟩
        | val v =>
            rw [finishMap_cons_val2] at h
            by_cases ho : isObjectLike v
            · rw [if_pos ho] at h
              by_cases hb : hasPromisedBinding v
              · rw [if_pos hb] at h
                cases hx : (finishMap r stack (getF w r (markerKey v) stack).2 rest).2 with
                | error e => rw [hx] at h; simp at h
                | ok args' =>
                    rw [hx] at h
                    have h2 := congrArg Prod.snd h
                    simp only [] at h2
                    injection h2 with h3
                    subst h3
                    have hp : finishMap r stack (getF w r (markerKey v) stack).2 rest =
                        ((finishMap r stack (getF w r (markerKey v) stack).2 rest).1,
                         Except.ok args') := by
                      rw [← hx]
                    obtain ⟨hlen, hpos⟩ := ih (getF w r (markerKey v) stack).2 _ args' hp
                    constructor
                    · simp [hlen]
                    · intro j b0 hj
                      cases j with
                      | zero => simp at hj
                      | succ j =>
                          rw [List.getElem?_cons_succ] at hj
                          obtain ⟨w₁, hw⟩ := hpos j b0 hj
                          exact ⟨w₁, by simpa using hw⟩
              · rw [if_neg hb] at h
                cases hx : (finishMap r stack w rest).2 with
                | error e => rw [hx] at h; simp at h
                | ok args' =>
                    rw [hx] at h
                    have h2 := congrArg Prod.snd h
                    simp only [] at h2
                    injection h2 with h3
                    subst h3
                    have hp : finishMap r stack w rest =
                        ((finishMap r stack w rest).1, Except.ok args') := by
                      rw [← hx]
                    obtain ⟨hlen, hpos⟩ := ih w _ args' hp
                    constructor
                    · simp [hlen]
                    · intro j b0 hj
                      cases j with
                      | zero => simp at hj
                      | succ j =>
                          rw [List.getElem?_cons_succ] at hj
                          obtain ⟨w₁, hw⟩ := hpos j b0 hj
                          exact ⟨w₁, by simpa using hw⟩
            · rw [if_neg ho] at h
              simp at h
  · intro w r i k stack hi
    show injectStart w r i stack = _
    unfold injectStart
    rw [hi]
    rfl
  · intro w r i k stack prod q reg hreg hs hm hf hq
    have hget := getF_factory_stack w r k prod stack hs hm hf
    have hfm : finishMap r stack w [.marker k] =
        ((getF w r k stack).2, Except.ok [.promiseV (getF w r k stack).1]) := by
      rw [finishMap_cons_marker2]
      rfl
    have hexec : execJob w (.injectAll r i stack [.marker k] q) =
        settleWith (allocObj (getF w r k stack).2 i.cid
            [.promiseV (getF w r k stack).1]).2 q
          (.obj (allocObj (getF w r k stack).2 i.cid
            [.promiseV (getF w r k stack).1]).1) := by
      rw [execJob_injectAll_eq]
      show (match (finishMap r stack w [.marker k]).2 with
        | .error e => rejectP (finishMap r stack w [.marker k]).1 q e
        | .ok args =>
            settleWith (allocObj (finishMap r stack w [.marker k]).1 i.cid args).2 q
              (.obj (allocObj (finishMap r stack w [.marker k]).1 i.cid args).1)) = _
      rw [hfm]
    have hexec2 : execJob w (.injectAll r i stack [.marker k] q) =
        settleWith
          (allocObj (enqueue (setMemo (freshP w .pending).2 r k w.promises.length)
              (.runFactory r k (stack ++ [k]) prod w.promises.length)) i.cid
            [.promiseV w.promises.length]).2 q
          (.obj ((enqueue (setMemo (freshP w .pending).2 r k w.promises.length)
              (.runFactory r k (stack ++ [k]) prod w.promises.length)).objs.length)) := by
      rw [hexec, hget]
      rfl
    refine ⟨?_, ?_, ?_, ?_, ?_⟩
    · rw [hexec2, objs_settleWith, objs_allocObj, objs_enqueue, objs_setMemo, objs_freshP]
    · rw [hexec2, getElemP_settleWith_ne _ q _ _ (Nat.ne_of_lt hq), promises_allocObj,
        promises_enqueue, promises_setMemo, promises_freshP]
      exact List.getElem?_concat_length ..
    · rw [hexec2, memoOf_congr (regs_settleWith ..) r k, memoOf_congr (regs_allocObj ..) r k,
        memoOf_congr (regs_enqueue ..) r k]
      exact memoOf_setMemo_self (freshP w .pending).2 r k w.promises.length reg
        (by rw [regAt_congr (regs_freshP ..) r]; exact hreg)
    · rw [hexec2, queue_settleWith, queue_allocObj, queue_enqueue, queue_setMemo, queue_freshP]
    · rw [hexec2, producerRuns_congr (trace_settleWith ..) r k,
        producerRuns_congr (trace_allocObj ..) r k,
        producerRuns_congr (trace_enqueue ..) r k,
        producerRuns_congr (trace_setMemo ..) r k,
        producerRuns_congr (trace_freshP ..) r k]
  · intro w r k stack2 v h hv hlt
    rw [execJob_runFactory_eq]
    show (settleWith (addTrace w r k) h v).promises[h]? = _
    rw [settleWith_nonPromise _ h v hv]
    unfold settleP
    show ((addTrace w r k).promises.set h (.fulfilled v))[h]? = _
    rw [promises_addTrace]
    exact List.getElem?_set_self hlt

def c5V : Injectable := ⟨3, "V", some [promise (.str "k")]⟩

def c5W : World := Injector.create w0p.2 rootR (.str "k") (.ret (.vstr "v"))

def c5W1 : World := (freshP c5W .pending).2

def c5fmW : World := (finishMap rootR [] c5W [FinVal.marker (.str "k")]).1

/-- Witness for C5 at concrete inputs. -/
theorem claim5_deferredHandles_witness :
    (∃ w₁, [Value.promiseV 0][0]? =
      some (Value.promiseV (getF w₁ rootR (.str "k") []).1)) ∧
    injectStart c5W rootR c5V [] =
      (c5W.promises.length,
       enqueue (freshP c5W .pending).2
         (.injectAll rootR c5V [] [.marker (.str "k")] c5W.promises.length)) ∧
    (execJob c5W1 (.injectAll rootR c5V [] [.marker (.str "k")] 0)).promises[
        c5W1.promises.length]? = some .pending ∧
    (execJob c5W1 (.runFactory rootR (.str "k") [.str "k"]
        (.ofFactory (.ret (.vstr "v"))) 0)).promises[0]? =
      some (.fulfilled (.vstr "v")) :=
  ⟨(claim5_deferredHandles.1 rootR [] [FinVal.marker (.str "k")] c5W c5fmW
      [Value.promiseV 0] (by rfl)).2 0 (.str "k") (by rfl),
   claim5_deferredHandles.2.1 c5W rootR c5V (.str "k") [] rfl,
   (claim5_deferredHandles.2.2.1 c5W1 rootR c5V (.str "k") []
      (.ofFactory (.ret (.vstr "v"))) 0
      ⟨[(Binding.str "k", Producer.ofFactory (FactoryCode.ret (Value.vstr "v")))], [], none⟩
      (by decide) (by decide) (by decide) (by decide) (by decide)).2.1,
   claim5_deferredHandles.2.2.2 c5W1 rootR (.str "k") [.str "k"] (.vstr "v") 0
      (fun q' hq => Value.noConfusion hq) (by decide)⟩

/- ### C10: the restricted capability surface handed to factories -/

/-- One operation reachable from inside a factory: one of the three
members of the `Injections` record it received (`get`, `inject`,
`injector`, each scoped to some registry and captured stack), or a
scheduler step running queued work. -/
inductive SurfaceStep : World → World → Prop
  | sGet (w : World) (r : RegId) (stack : List Binding) (b : Binding) :
      SurfaceStep w ((factoryInjections r stack).doGet b w).2
  | sInject (w : World) (r : RegId) (stack : List Binding) (i : Injectable) :
      SurfaceStep w ((factoryInjections r stack).doInject i w).2
  | sChild (w : World) (r : RegId) (stack : List Binding) :
      SurfaceStep w ((factoryInjections r stack).doInjector w).2
  | sSched (w w' : World) : schedStep w = some w' → SurfaceStep w w'

/-- Anything a factory can reach by composing its capability surface. -/
def SurfaceEvolves (w w' : World) : Prop := Relation.ReflTransGen SurfaceStep w w'

/-- C10: factories receive a narrowed surface.  `create` stores the user
factory as the producer, and when the producer runs, the factory is
invoked with exactly the `Injections` record whose three members are
`get`, `inject` and `injector`, the first two scoped to the call stack
captured at invocation time.  The registration operations `bind`, `create`
and `use` are not part of that record, and indeed nothing reachable from
it can mutate the registry that is resolving it: under any composition of
the three exposed operations (and any scheduler activity they trigger),
every registry's `#factories` map is unchanged, every existing registry
keeps its parent pointer, and no existing memo entry is ever removed or
replaced. -/
theorem claim10_restrictedSurface :
    (∀ w r b f reg, regAt w r = some reg →
      factoryOf (Injector.create w r b f) r b = some (.ofFactory f)) ∧
    (∀ w r b stack f q, execJob w (.runFactory r b stack (.ofFactory f) q) =
      settleWith (runFCode (factoryInjections r stack) (addTrace w r b) f).2 q
        (runFCode (factoryInjections r stack) (addTrace w r b) f).1) ∧
    (∀ r stack, factoryInjections r stack =
      ⟨fun b w => getF w r b stack, fun i w => injectStart w r i stack,
       fun w => childOf w r⟩) ∧
    (∀ w w', SurfaceEvolves w w' →
      (∀ r b, factoryOf w' r b = factoryOf w r b) ∧
      (∀ r, regAt w r ≠ none → regAt w' r ≠ none ∧ parentOf w' r = parentOf w r) ∧
      (∀ r b p, memoOf w r b = some p → memoOf w' r b = some p)) := by
  refine ⟨?_, fun w r b stack f q => rfl, fun r stack => rfl, ?_⟩
  · intro w r b f reg hreg
    exact factoryOf_setFactory_self w r b (.ofFactory f) reg hreg
  · have tameStep : ∀ {w1 w2 : World}, SurfaceStep w1 w2 → Tame w1 w2 := by
      intro w1 w2 hstep
      cases hstep with
      | sGet r stack b => exact tame_of_resolves (resolves_getF w1 r b stack)
      | sInject r stack i =>
          exact tame_of_resolves (resolves_injectStart w1 r i stack)
      | sChild r stack => exact tame_of_resolves (resolves_childOf w1 r)
      | sSched w2' hs => exact tame_schedStep hs
    intro w w' hev
    induction hev with
    | refl => exact ⟨fun _ _ => rfl, fun r h => ⟨h, rfl⟩, fun _ _ _ h => h⟩
    | tail hsteps hstep ih => exact tameTrans ih (tameStep hstep)

/-- Witness for C10 at concrete inputs. -/
theorem claim10_restrictedSurface_witness :
    factoryOf (Injector.create w0p.2 rootR (.str "f") (.ret .undef)) rootR (.str "f") =
      some (.ofFactory (.ret .undef)) ∧
    (∀ r b, factoryOf ((factoryInjections rootR []).doGet (.str "f")
        (Injector.create w0p.2 rootR (.str "f") (.ret .undef))).2 r b =
      factoryOf (Injector.create w0p.2 rootR (.str "f") (.ret .undef)) r b) :=
  ⟨(claim10_restrictedSurface.1 w0p.2 rootR (.str "f") (.ret .undef) ⟨[], [], none⟩
      (by decide)),
   (claim10_restrictedSurface.2.2.2 (Injector.create w0p.2 rootR (.str "f") (.ret .undef))
      _ (Relation.ReflTransGen.single
        (SurfaceStep.sGet (Injector.create w0p.2 rootR (.str "f") (.ret .undef))
          rootR [] (.str "f")))).1⟩
